import Mathlib

/-!
# stringsim: similarity by repeated extraction of local alignments

A shallow embedding of `include/stringsim/stringsim.h`.

* `long` values are `Int`, `size_t` values are `Nat`; arithmetic overflow of the
  machine types is not modelled.
* Sequences are lists over any type with decidable equality.
* Every cell lookup `matrix(i, j)`, every sequence lookup `a[i]` and every call of
  `max_value` is checked: leaving the window, leaving the sequence or taking the
  maximum of an empty window ends the run with a `Fault`.
* The two `while` loops carry a fuel argument; the theorems show that the fuel the
  callers supply is never exhausted.
* `similarity_run` is the loop of `similarity` together with a record of its iterations
  (`Run`); `similarity_run_result` shows that it returns what `similarity_loop` returns.
  `similarity_candidate_sets` lists the candidate sets the loop condition sees in a run.
-/

namespace stringsim

/-- Ways in which a run can leave the defined behaviour of the program. -/
inductive Fault where
  | cell_out_of_bounds
  | sequence_out_of_bounds
  | max_of_empty
  | no_candidates
  | out_of_fuel
  deriving DecidableEq, Repr

deriving instance DecidableEq for Except

/-- The record `Scoring` of the source. -/
structure Scoring where
  match_value : Int
  mismatch_value : Int
  space_value : Int
  part_value : Int
  min_len : Nat
  deriving DecidableEq, Repr

/-- Modelled from the spec: the class `Matrix` of `stringsim/matrix.h`, which is not
among the sources. A window is the rectangle
`[row_begin, row_end) × [col_begin, col_end)` in absolute coordinates together with
one score per cell; `cells i j` is the score stored for the absolute coordinate
`(i, j)` and is only observable, through `Matrix.get`, inside the rectangle. -/
structure Matrix where
  row_begin : Nat
  row_end : Nat
  col_begin : Nat
  col_end : Nat
  cells : Nat → Nat → Int

namespace Matrix

/-- Modelled from the spec: the constructor `Matrix(rows, cols)` of the missing
`matrix.h`, the full table `[0, rows) × [0, cols)`. -/
def full (rows cols : Nat) : Matrix :=
  { row_begin := 0, row_end := rows, col_begin := 0, col_end := cols, cells := fun _ _ => 0 }

/-- Modelled from the spec: the sub-window constructor
`Matrix(parent, row_begin, row_end, col_begin, col_end)` of the missing `matrix.h`;
it copies the values of the sub-region into storage of its own. -/
def sub (parent : Matrix) (row_begin row_end col_begin col_end : Nat) : Matrix :=
  { row_begin := row_begin, row_end := row_end, col_begin := col_begin, col_end := col_end,
    cells := fun i j =>
      if row_begin ≤ i ∧ i < row_end ∧ col_begin ≤ j ∧ j < col_end then parent.cells i j else 0 }

/-- Number of cells of a window (an inverted range counts as no cells). -/
def area (m : Matrix) : Nat :=
  (m.row_end - m.row_begin) * (m.col_end - m.col_begin)

/-- Modelled from the spec: `empty()` of the missing `matrix.h`; a window is empty
iff its area is zero. -/
def empty (m : Matrix) : Bool :=
  decide (m.area = 0)

/-- The coordinate `(i, j)` is a cell of the window. -/
def inside (m : Matrix) (i j : Nat) : Prop :=
  m.row_begin ≤ i ∧ i < m.row_end ∧ m.col_begin ≤ j ∧ j < m.col_end

instance (m : Matrix) (i j : Nat) : Decidable (m.inside i j) := by
  unfold inside; infer_instance

/-- Modelled from the spec: reading `matrix(i, j)` through `operator()` of the missing
`matrix.h`; the coordinate must be a cell of the window. -/
def get (m : Matrix) (i j : Nat) : Except Fault Int :=
  if m.inside i j then .ok (m.cells i j) else .error Fault.cell_out_of_bounds

/-- Modelled from the spec: the assignment `matrix(i, j) = v` through `operator()` of
the missing `matrix.h`; the coordinate must be a cell of the window. -/
def set (m : Matrix) (i j : Nat) (v : Int) : Except Fault Matrix :=
  if m.inside i j then
    .ok { m with cells := fun i' j' => if i' = i ∧ j' = j then v else m.cells i' j' }
  else .error Fault.cell_out_of_bounds

/-- The cells of a window in row-major order. -/
def coords (m : Matrix) : List (Nat × Nat) :=
  (List.range' m.row_begin (m.row_end - m.row_begin)).flatMap fun i =>
    (List.range' m.col_begin (m.col_end - m.col_begin)).map fun j => (i, j)

/-- Modelled from the spec: `max_value()` of the missing `matrix.h`, the maximum cell
value over the window; the window must be non-empty. -/
def max_value (m : Matrix) : Except Fault Int :=
  match m.coords with
  | [] => .error Fault.max_of_empty
  | c :: cs => .ok (cs.foldl (fun best c' => max best (m.cells c'.1 c'.2)) (m.cells c.1 c.2))

/-- Modelled from the spec: `max_element()` of the missing `matrix.h`, the coordinate of
a maximum cell; among equal maxima the first one of the row-major scan. -/
def max_element (m : Matrix) : Except Fault (Nat × Nat) :=
  match m.coords with
  | [] => .error Fault.max_of_empty
  | c :: cs =>
    .ok (cs.foldl (fun best c' => if m.cells best.1 best.2 < m.cells c'.1 c'.2 then c' else best) c)

end Matrix

/-- The lookup `a[i]` in a sequence. -/
def seq_at {α : Type} (a : List α) (i : Nat) : Except Fault α :=
  match a.get? i with
  | some x => .ok x
  | none => .error Fault.sequence_out_of_bounds

/-- A counted loop `for (k = start; k < start + count; k++) state = body(k, state)`. -/
def for_range {σ : Type} (body : Nat → σ → Except Fault σ) : Nat → Nat → σ → Except Fault σ
  | 0, _, s => .ok s
  | count + 1, k, s =>
    match body k s with
    | .error e => .error e
    | .ok s' => for_range body count (k + 1) s'

/-- The function `compute_matrix_elt` of the source. -/
def compute_matrix_elt {α : Type} [DecidableEq α] (scoring : Scoring) (a b : List α)
    (matrix : Matrix) (i j : Nat) : Except Fault Int := do
  let upper ← (if i = matrix.row_begin then pure 0 else matrix.get (i - 1) j)
  let left ← (if j = matrix.col_begin then pure 0 else matrix.get i (j - 1))
  let upper_left ←
    (if i = matrix.row_begin ∨ j = matrix.col_begin then pure 0 else matrix.get (i - 1) (j - 1))
  let ai ← seq_at a i
  let bj ← seq_at b j
  let match_mistmatch_value := if ai = bj then scoring.match_value else scoring.mismatch_value
  pure (max 0 (max (upper_left + match_mistmatch_value)
    (max (left + scoring.space_value) (upper + scoring.space_value))))

/-- The function `fill_matrix` of the source. -/
def fill_matrix {α : Type} [DecidableEq α] (scoring : Scoring) (a b : List α)
    (matrix : Matrix) : Except Fault Matrix :=
  if matrix.row_begin ≥ matrix.row_end ∨ matrix.col_begin ≥ matrix.col_end then
    pure matrix
  else
    for_range (fun i mx =>
      for_range (fun j mx => do
        let v ← compute_matrix_elt scoring a b mx i j
        mx.set i j v) (matrix.col_end - matrix.col_begin) matrix.col_begin mx)
      (matrix.row_end - matrix.row_begin) matrix.row_begin matrix

/-- The traceback loop of `find_alignment`: the state is `(i, j)` and the corner
`(row_begin, col_begin)` found so far; the result is the final corner. -/
def traceback {α : Type} [DecidableEq α] (scoring : Scoring) (a b : List α) (matrix : Matrix) :
    Nat → Nat → Nat → Nat → Nat → Except Fault (Nat × Nat)
  | 0, _, _, _, _ => .error Fault.out_of_fuel
  | fuel + 1, i, j, row_begin, col_begin => do
    let this_value ← matrix.get i j
    if this_value > 0 then
      let diagonal ←
        (if i > matrix.row_begin ∧ j > matrix.col_begin then do
          let upper_left ← matrix.get (i - 1) (j - 1)
          let ai ← seq_at a i
          let bj ← seq_at b j
          pure (decide (this_value = upper_left +
            (if ai = bj then scoring.match_value else scoring.mismatch_value)))
        else pure false)
      if diagonal then traceback scoring a b matrix fuel (i - 1) (j - 1) i j
      else
        let vertical ←
          (if i > matrix.row_begin then do
            let upper ← matrix.get (i - 1) j
            pure (decide (this_value = upper + scoring.space_value))
          else pure false)
        if vertical then traceback scoring a b matrix fuel (i - 1) j i j
        else
          let horizontal ←
            (if j > matrix.col_begin then do
              let left ← matrix.get i (j - 1)
              pure (decide (this_value = left + scoring.space_value))
            else pure false)
          if horizontal then traceback scoring a b matrix fuel i (j - 1) i j
          else pure (i, j)
    else pure (row_begin, col_begin)

/-- The function `find_alignment` of the source. -/
def find_alignment {α : Type} [DecidableEq α] (scoring : Scoring) (a b : List α)
    (matrix : Matrix) : Except Fault Matrix :=
  if matrix.empty then pure matrix
  else do
    let (i, j) ← matrix.max_element
    let (row_begin, col_begin) ←
      traceback scoring a b matrix ((i - matrix.row_begin) + (j - matrix.col_begin) + 1)
        i j (i + 1) (j + 1)
    pure (Matrix.sub matrix row_begin (i + 1) col_begin (j + 1))

/-- The function `push_if_not_empty` of the source. -/
def push_if_not_empty (vec : List Matrix) (mx : Matrix) : List Matrix :=
  if !mx.empty then vec ++ [mx] else vec

/-- One iteration of the loop of `remove_alignment`: the window `mx` is split and its
pieces are appended to `unaffected` and `affected`. -/
def remove_alignment_step (alignment : Matrix) (acc : List Matrix × List Matrix) (mx : Matrix) :
    List Matrix × List Matrix :=
  let unaffected := acc.1
  let affected := acc.2
  let rows_intersect :=
    !(decide (mx.row_end ≤ alignment.row_begin) || decide (alignment.row_end ≤ mx.row_begin))
  let cols_intersect :=
    !(decide (mx.col_end ≤ alignment.col_begin) || decide (alignment.col_end ≤ mx.col_begin))
  if rows_intersect && cols_intersect then
    let unaffected := push_if_not_empty unaffected
      (Matrix.sub mx mx.row_begin alignment.row_begin mx.col_begin alignment.col_begin)
    let affected := push_if_not_empty affected
      (Matrix.sub mx mx.row_begin alignment.row_begin alignment.col_end mx.col_end)
    let affected := push_if_not_empty affected
      (Matrix.sub mx alignment.row_end mx.row_end mx.col_begin alignment.col_begin)
    let affected := push_if_not_empty affected
      (Matrix.sub mx alignment.row_end mx.row_end alignment.col_end mx.col_end)
    (unaffected, affected)
  else if rows_intersect then
    let affected := push_if_not_empty affected
      (Matrix.sub mx mx.row_begin alignment.row_begin mx.col_begin mx.col_end)
    let affected := push_if_not_empty affected
      (Matrix.sub mx alignment.row_end mx.row_end mx.col_begin mx.col_end)
    (unaffected, affected)
  else if cols_intersect then
    let affected := push_if_not_empty affected
      (Matrix.sub mx mx.row_begin mx.row_end mx.col_begin alignment.col_begin)
    let affected := push_if_not_empty affected
      (Matrix.sub mx mx.row_begin mx.row_end alignment.col_end mx.col_end)
    (unaffected, affected)
  else
    (unaffected ++ [mx], affected)

/-- The function `remove_alignment` of the source; the result is the pair
`(unaffected, affected)`. -/
def remove_alignment (matrices : List Matrix) (alignment : Matrix) :
    List Matrix × List Matrix :=
  matrices.foldl (remove_alignment_step alignment) ([], [])

/-- The function `update_matrix` of the source. The state of the inner loop is the
window and `last_updated_col_this`; the outer loop also carries
`last_updated_col_prev`. Both columns are written and never read. -/
def update_matrix {α : Type} [DecidableEq α] (scoring : Scoring) (a b : List α)
    (matrix : Matrix) : Except Fault Matrix := do
  let final ← for_range (fun i (st : Matrix × Int × Int) => do
      let last_updated_col_prev := st.2.1
      let inner ← for_range (fun j (s : Matrix × Int) => do
          let newval ← compute_matrix_elt scoring a b s.1 i j
          let old ← s.1.get i j
          if newval ≠ old then do
            let mx ← s.1.set i j newval
            pure (mx, (j : Int))
          else pure s)
        (matrix.col_end - matrix.col_begin) matrix.col_begin (st.1, -1)
      pure (inner.1, inner.2, last_updated_col_prev))
    (matrix.row_end - matrix.row_begin) matrix.row_begin (matrix, -1, -1)
  pure final.1

/-- Index of the first greatest element of a list, as `std::max_element` finds it:
`best` is the index of the greatest element so far, `bestv` its value and `k` the
index of the head of the remaining list. -/
def max_index : List Int → Nat → Nat → Int → Nat
  | [], _, best, _ => best
  | x :: xs, k, best, bestv =>
    if bestv < x then max_index xs (k + 1) k x else max_index xs (k + 1) best bestv

/-- The function `choose_alignment` of the source. -/
def choose_alignment {α : Type} [DecidableEq α] (scoring : Scoring) (a b : List α)
    (matrices : List Matrix) : Except Fault Matrix := do
  let scores ← matrices.mapM Matrix.max_value
  match scores with
  | [] => .error Fault.no_candidates
  | s :: rest =>
    match matrices.get? (max_index rest 1 0 s) with
    | none => .error Fault.no_candidates
    | some best_matrix => find_alignment scoring a b best_matrix

/-- What one iteration of the loop of `similarity` does with the alignment it chose: it
leaves the loop with `break`, or it accepts the alignment, adds `score_inc` to the total
and replaces the candidate windows. -/
inductive Step where
  | stop (alignment : Matrix)
  | next (score_inc : Int) (alignment : Matrix) (matrices : List Matrix)

/-- The body of the loop of `similarity`. -/
def similarity_step {α : Type} [DecidableEq α] (scoring : Scoring) (a b : List α)
    (matrices : List Matrix) : Except Fault Step := do
  let alignment ← choose_alignment scoring a b matrices
  if alignment.empty
      ∨ alignment.row_end - alignment.row_begin < scoring.min_len
      ∨ alignment.col_end - alignment.col_begin < scoring.min_len then
    pure (Step.stop alignment)
  else do
    let value ← alignment.get (alignment.row_end - 1) (alignment.col_end - 1)
    let score_inc := value + scoring.part_value
    if score_inc ≤ 0 then pure (Step.stop alignment)
    else do
      let (unaffected, affected) := remove_alignment matrices alignment
      let affected ← affected.mapM (update_matrix scoring a b)
      pure (Step.next score_inc alignment (unaffected ++ affected))

/-- The loop of `similarity`, started with `total_score` and the candidate windows
`matrices`. -/
def similarity_loop {α : Type} [DecidableEq α] (scoring : Scoring) (a b : List α) :
    Nat → Int → List Matrix → Except Fault Int
  | 0, _, _ => .error Fault.out_of_fuel
  | fuel + 1, total_score, matrices =>
    if matrices.isEmpty then .ok total_score
    else
      match similarity_step scoring a b matrices with
      | .error e => .error e
      | .ok (Step.stop _) => .ok total_score
      | .ok (Step.next score_inc _ matrices') =>
        similarity_loop scoring a b fuel (total_score + score_inc) matrices'

/-- The function `similarity` of the source. Every iteration that does not leave the
loop removes at least one cell from the candidate windows, so the area of the table
plus two bounds the number of times the loop condition is evaluated. -/
def similarity {α : Type} [DecidableEq α] (scoring : Scoring) (a b : List α) :
    Except Fault Int := do
  let matrix ← fill_matrix scoring a b (Matrix.full a.length b.length)
  similarity_loop scoring a b (a.length * b.length + 2) 0 [matrix]

/-- A record of a run of the loop of `similarity`: its outcome, the number of times the
loop body is entered, for every iteration that accepts an alignment `score_inc` and the
alignment, and the alignment of the iteration that leaves the loop with `break`. -/
structure Run where
  result : Except Fault Int
  iterations : Nat
  accepted : List (Int × Matrix)
  rejected : Option Matrix

/-- The alignments a run extracts, in the order of the iterations. -/
def Run.extracted (run : Run) : List Matrix :=
  run.accepted.map Prod.snd ++ run.rejected.toList

/-- The loop of `similarity` together with the record of what it does. -/
def similarity_run {α : Type} [DecidableEq α] (scoring : Scoring) (a b : List α) :
    Nat → Int → List Matrix → Run
  | 0, _, _ =>
    { result := .error Fault.out_of_fuel, iterations := 0, accepted := [], rejected := none }
  | fuel + 1, total_score, matrices =>
    if matrices.isEmpty then
      { result := .ok total_score, iterations := 0, accepted := [], rejected := none }
    else
      match similarity_step scoring a b matrices with
      | .error e => { result := .error e, iterations := 1, accepted := [], rejected := none }
      | .ok (Step.stop alignment) =>
        { result := .ok total_score, iterations := 1, accepted := [],
          rejected := some alignment }
      | .ok (Step.next score_inc alignment matrices') =>
        let run := similarity_run scoring a b fuel (total_score + score_inc) matrices'
        { result := run.result, iterations := run.iterations + 1,
          accepted := (score_inc, alignment) :: run.accepted, rejected := run.rejected }

/-- The function `similarity` together with the record of what its loop does. -/
def similarity_trace {α : Type} [DecidableEq α] (scoring : Scoring) (a b : List α) : Run :=
  match fill_matrix scoring a b (Matrix.full a.length b.length) with
  | .error e => { result := .error e, iterations := 0, accepted := [], rejected := none }
  | .ok matrix => similarity_run scoring a b (a.length * b.length + 2) 0 [matrix]

/-! ## Pure counterparts and predicates used in the statements and proofs -/

/-- The value `compute_matrix_elt` returns when none of its lookups leaves the window
or the sequences. -/
def elt {α : Type} [DecidableEq α] (scoring : Scoring) (a b : List α)
    (matrix : Matrix) (i j : Nat) : Int :=
  max 0 (max
    ((if i = matrix.row_begin ∨ j = matrix.col_begin then 0 else matrix.cells (i - 1) (j - 1))
      + (if a.get? i = b.get? j then scoring.match_value else scoring.mismatch_value))
    (max ((if j = matrix.col_begin then 0 else matrix.cells i (j - 1)) + scoring.space_value)
      ((if i = matrix.row_begin then 0 else matrix.cells (i - 1) j) + scoring.space_value)))

/-- Every cell of the window is a fixed point of the recurrence. -/
def Consistent {α : Type} [DecidableEq α] (scoring : Scoring) (a b : List α)
    (m : Matrix) : Prop :=
  ∀ i j, m.inside i j → m.cells i j = elt scoring a b m i j

/-- Two windows have the same rectangle. -/
def SameBounds (m m' : Matrix) : Prop :=
  m'.row_begin = m.row_begin ∧ m'.row_end = m.row_end ∧
    m'.col_begin = m.col_begin ∧ m'.col_end = m.col_end

/-- The coordinate `(i', j')` comes before `(i, j)` in the row-major scan. -/
def Before (i' j' i j : Nat) : Prop :=
  i' < i ∨ (i' = i ∧ j' < j)

/-- The cells of `m` before `(i, j)` in the row-major scan are fixed points of the
recurrence. -/
def FilledBefore {α : Type} [DecidableEq α] (scoring : Scoring) (a b : List α)
    (m : Matrix) (i j : Nat) : Prop :=
  ∀ i' j', m.inside i' j' → Before i' j' i j → m.cells i' j' = elt scoring a b m i' j'

/-- The value added on the diagonal at `(i, j)`. -/
def match_val {α : Type} [DecidableEq α] (scoring : Scoring) (a b : List α) (i j : Nat) : Int :=
  if a.get? i = b.get? j then scoring.match_value else scoring.mismatch_value

/-- The first test of the traceback: the walk moves along the diagonal. -/
def diag_move {α : Type} [DecidableEq α] (scoring : Scoring) (a b : List α)
    (m : Matrix) (i j : Nat) : Bool :=
  decide (i > m.row_begin ∧ j > m.col_begin ∧
    m.cells i j = m.cells (i - 1) (j - 1) + match_val scoring a b i j)

/-- The second test of the traceback: the walk moves up. -/
def up_move (scoring : Scoring) (m : Matrix) (i j : Nat) : Bool :=
  decide (i > m.row_begin ∧ m.cells i j = m.cells (i - 1) j + scoring.space_value)

/-- The third test of the traceback: the walk moves left. -/
def left_move (scoring : Scoring) (m : Matrix) (i j : Nat) : Bool :=
  decide (j > m.col_begin ∧ m.cells i j = m.cells i (j - 1) + scoring.space_value)

/-- The corner the traceback returns when none of its lookups fails and the fuel
suffices. -/
def trace {α : Type} [DecidableEq α] (scoring : Scoring) (a b : List α) (m : Matrix) :
    Nat → Nat → Nat → Nat → Nat → Nat × Nat
  | 0, _, _, r0, c0 => (r0, c0)
  | fuel + 1, i, j, r0, c0 =>
    if m.cells i j > 0 then
      if diag_move scoring a b m i j then trace scoring a b m fuel (i - 1) (j - 1) i j
      else if up_move scoring m i j then trace scoring a b m fuel (i - 1) j i j
      else if left_move scoring m i j then trace scoring a b m fuel i (j - 1) i j
      else (i, j)
    else (r0, c0)

/-- The list `push_if_not_empty` appends: the window itself unless it is empty. -/
def keep (mx : Matrix) : List Matrix :=
  if mx.empty then [] else [mx]

/-- The windows one candidate window contributes to `unaffected`. -/
def unaffected_pieces (alignment mx : Matrix) : List Matrix :=
  (remove_alignment_step alignment ([], []) mx).1

/-- The windows one candidate window contributes to `affected`. -/
def affected_pieces (alignment mx : Matrix) : List Matrix :=
  (remove_alignment_step alignment ([], []) mx).2

/-- The window `p` is a non-empty copy of a part of `mx` that avoids the rows and the
columns of `alignment`. -/
def PieceOf (alignment mx p : Matrix) : Prop :=
  p.empty = false ∧
  mx.row_begin ≤ p.row_begin ∧ p.row_end ≤ mx.row_end ∧
  mx.col_begin ≤ p.col_begin ∧ p.col_end ≤ mx.col_end ∧
  (p.row_end ≤ alignment.row_begin ∨ alignment.row_end ≤ p.row_begin) ∧
  (p.col_end ≤ alignment.col_begin ∨ alignment.col_end ≤ p.col_begin) ∧
  ∀ i j, p.inside i j → p.cells i j = mx.cells i j

/-- Total number of cells of a list of windows. -/
def total_area (matrices : List Matrix) : Nat :=
  (matrices.map Matrix.area).sum

/-- The candidate windows are non-empty and lie inside the table of `a` and `b`. -/
def Candidates {α : Type} (a b : List α) (matrices : List Matrix) : Prop :=
  ∀ m ∈ matrices, m.empty = false ∧ m.row_end ≤ a.length ∧ m.col_end ≤ b.length

/-- The greatest cell value of a non-empty window (`0` for an empty one). -/
def Matrix.maxv (m : Matrix) : Int :=
  match m.max_value with
  | .ok v => v
  | .error _ => 0

/-- What an iteration of the loop that accepts the alignment `al` guarantees: `ms` are
the candidate windows before the iteration and `ms'` after it. -/
structure Accepted {α : Type} [DecidableEq α] (scoring : Scoring) (a b : List α)
    (ms : List Matrix) (inc : Int) (al : Matrix) (ms' : List Matrix) : Prop where
  inc_pos : 0 < inc
  rows : al.row_begin < al.row_end
  cols : al.col_begin < al.col_end
  min_rows : scoring.min_len ≤ al.row_end - al.row_begin
  min_cols : scoring.min_len ≤ al.col_end - al.col_begin
  best : ∃ best ∈ ms, find_alignment scoring a b best = .ok al ∧
    best.row_begin ≤ al.row_begin ∧ al.row_end ≤ best.row_end ∧
    best.col_begin ≤ al.col_begin ∧ al.col_end ≤ best.col_end ∧
    al.get (al.row_end - 1) (al.col_end - 1) = .ok best.maxv ∧
    inc = best.maxv + scoring.part_value
  cands : Candidates a b ms'
  area : total_area ms' < total_area ms
  descend : ∀ p ∈ ms', ∃ mx ∈ ms,
    mx.row_begin ≤ p.row_begin ∧ p.row_end ≤ mx.row_end ∧
    mx.col_begin ≤ p.col_begin ∧ p.col_end ≤ mx.col_end ∧
    (p.row_end ≤ al.row_begin ∨ al.row_end ≤ p.row_begin) ∧
    (p.col_end ≤ al.col_begin ∨ al.col_end ≤ p.col_begin)

/-- The iterations of a run that starts with the candidate windows `ms`: the accepted
`(score_inc, alignment)` pairs and the number of times the loop body is entered. -/
inductive Chain {α : Type} [DecidableEq α] (scoring : Scoring) (a b : List α) :
    List Matrix → List (Int × Matrix) → Option Matrix → Nat → Prop where
  | exhausted : Chain scoring a b [] [] none 0
  | stopped (ms : List Matrix) (al : Matrix) : ms ≠ [] →
      (∃ best ∈ ms, ∀ i j, al.inside i j → best.inside i j) →
      Chain scoring a b ms [] (some al) 1
  | accepted (ms : List Matrix) (inc : Int) (al : Matrix) (ms' : List Matrix)
      (rest : List (Int × Matrix)) (rej : Option Matrix) (n : Nat) :
      ms ≠ [] → Accepted scoring a b ms inc al ms' → Chain scoring a b ms' rest rej n →
      Chain scoring a b ms ((inc, al) :: rest) rej (n + 1)

/-- No cell belongs to both windows. -/
def NoOverlap (p q : Matrix) : Prop :=
  ¬ ∃ i j, p.inside i j ∧ q.inside i j

/-- The rows below `rows` that meet one of the windows. -/
def live_rows (rows : Nat) (ms : List Matrix) : Finset Nat :=
  (Finset.range rows).filter (fun r => ∃ m ∈ ms, m.row_begin ≤ r ∧ r < m.row_end)

/-- The scoring of the degenerate case of the specification. -/
def unit_scoring : Scoring :=
  { match_value := 1, mismatch_value := -1, space_value := -1, part_value := 0, min_len := 1 }

/-- The columns below `cols` that meet one of the windows. -/
def live_cols (cols : Nat) (ms : List Matrix) : Finset Nat :=
  (Finset.range cols).filter (fun c => ∃ m ∈ ms, m.col_begin ≤ c ∧ c < m.col_end)

/-- What an iteration of the loop that accepts the alignment `al` guarantees when the
candidate windows `ms` are fixed points of the recurrence: the new candidate windows
`ms'` are fixed points again, the score `inc - part_value` of the alignment is the
greatest value of the old candidate windows and bounds the values of the new ones, and
it is at most `match_value` per row and per column of the alignment. -/
structure Refined {α : Type} [DecidableEq α] (scoring : Scoring) (a b : List α)
    (ms : List Matrix) (inc : Int) (al : Matrix) (ms' : List Matrix) : Prop where
  acc : Accepted scoring a b ms inc al ms'
  consistent : ∀ p ∈ ms', Consistent scoring a b p
  maximal : ∀ m ∈ ms, m.maxv ≤ inc - scoring.part_value
  shrink : ∀ p ∈ ms', p.maxv ≤ inc - scoring.part_value
  value : al.get (al.row_end - 1) (al.col_end - 1) = .ok (inc - scoring.part_value)
  bound : scoring.mismatch_value ≤ scoring.match_value → scoring.space_value ≤ 0 →
    ∃ d : Nat, d + 1 ≤ al.row_end - al.row_begin ∧ d + 1 ≤ al.col_end - al.col_begin ∧
      inc - scoring.part_value ≤ scoring.match_value * ((d : Int) + 1)

/-- The candidate sets at the evaluations of the condition of the loop of `similarity`,
started with the candidate windows `matrices`: the set at the start of every iteration
and, when the loop ends because no candidate is left, the empty set. -/
def similarity_candidates {α : Type} [DecidableEq α] (scoring : Scoring) (a b : List α) :
    Nat → List Matrix → List (List Matrix)
  | 0, _ => []
  | fuel + 1, matrices =>
    matrices ::
      (if matrices.isEmpty then []
      else
        match similarity_step scoring a b matrices with
        | .ok (Step.next _ _ matrices') => similarity_candidates scoring a b fuel matrices'
        | _ => [])

/-- The candidate sets at the evaluations of the condition of the loop in a run of
`similarity`. -/
def similarity_candidate_sets {α : Type} [DecidableEq α] (scoring : Scoring) (a b : List α) :
    List (List Matrix) :=
  match fill_matrix scoring a b (Matrix.full a.length b.length) with
  | .error _ => []
  | .ok matrix => similarity_candidates scoring a b (a.length * b.length + 2) [matrix]

/-! ## The window operations -/

theorem Matrix.empty_iff (m : Matrix) :
    m.empty = true ↔ m.row_end ≤ m.row_begin ∨ m.col_end ≤ m.col_begin := by
  unfold Matrix.empty Matrix.area
  rw [decide_eq_true_iff, Nat.mul_eq_zero]
  omega

theorem Matrix.not_empty_iff (m : Matrix) :
    m.empty = false ↔ m.row_begin < m.row_end ∧ m.col_begin < m.col_end := by
  rw [← Bool.not_eq_true, Matrix.empty_iff]
  omega

theorem Matrix.get_inside {m : Matrix} {i j : Nat} (h : m.inside i j) :
    m.get i j = .ok (m.cells i j) := by
  unfold Matrix.get
  rw [if_pos h]

theorem Matrix.set_inside {m : Matrix} {i j : Nat} (v : Int) (h : m.inside i j) :
    m.set i j v =
      .ok { m with cells := fun i' j' => if i' = i ∧ j' = j then v else m.cells i' j' } := by
  unfold Matrix.set
  rw [if_pos h]

theorem seq_at_lt {α : Type} (a : List α) (i : Nat) (h : i < a.length) :
    seq_at a i = .ok (a.get ⟨i, h⟩) := by
  unfold seq_at
  rw [List.get?_eq_get h]

theorem for_range_inv {σ : Type} (body : Nat → σ → Except Fault σ) (P : Nat → σ → Prop) :
    ∀ (n k : Nat) (s : σ), P k s →
      (∀ i t, k ≤ i → i < k + n → P i t → ∃ t', body i t = .ok t' ∧ P (i + 1) t') →
      ∃ s', for_range body n k s = .ok s' ∧ P (k + n) s' := by
  intro n
  induction n with
  | zero => intro k s h0 _; exact ⟨s, rfl, h0⟩
  | succ n ih =>
    intro k s h0 hstep
    obtain ⟨t, ht, hP⟩ := hstep k s (Nat.le_refl k) (by omega) h0
    obtain ⟨s', hs', hP'⟩ := ih (k + 1) t hP (fun i u h1 h2 hu => hstep i u (by omega) (by omega) hu)
    refine ⟨s', ?_, ?_⟩
    · simp only [for_range, ht]; exact hs'
    · have : k + (n + 1) = k + 1 + n := by omega
      rw [this]; exact hP'

theorem compute_matrix_elt_inside {α : Type} [DecidableEq α] (scoring : Scoring) (a b : List α)
    (m : Matrix) (i j : Nat) (h : m.inside i j) (hi : i < a.length) (hj : j < b.length) :
    compute_matrix_elt scoring a b m i j = .ok (elt scoring a b m i j) := by
  obtain ⟨h1, h2, h3, h4⟩ := h
  have hu : (if i = m.row_begin then (pure 0 : Except Fault Int) else m.get (i - 1) j)
      = .ok (if i = m.row_begin then 0 else m.cells (i - 1) j) := by
    split
    · rfl
    · exact Matrix.get_inside ⟨by omega, by omega, h3, h4⟩
  have hl : (if j = m.col_begin then (pure 0 : Except Fault Int) else m.get i (j - 1))
      = .ok (if j = m.col_begin then 0 else m.cells i (j - 1)) := by
    split
    · rfl
    · exact Matrix.get_inside ⟨h1, h2, by omega, by omega⟩
  have hul : (if i = m.row_begin ∨ j = m.col_begin then (pure 0 : Except Fault Int)
      else m.get (i - 1) (j - 1))
      = .ok (if i = m.row_begin ∨ j = m.col_begin then 0 else m.cells (i - 1) (j - 1)) := by
    split
    · rfl
    · exact Matrix.get_inside ⟨by omega, by omega, by omega, by omega⟩
  unfold compute_matrix_elt elt
  rw [hu, hl, hul, seq_at_lt a i hi, seq_at_lt b j hj]
  simp only [List.get?_eq_get hi, List.get?_eq_get hj, Option.some.injEq]
  rfl

theorem elt_congr {α : Type} [DecidableEq α] (scoring : Scoring) (a b : List α)
    (m m' : Matrix) (i j : Nat) (hr : m'.row_begin = m.row_begin)
    (hc : m'.col_begin = m.col_begin) (hi : m.row_begin ≤ i) (hj : m.col_begin ≤ j)
    (hcells : ∀ i' j', Before i' j' i j → m'.cells i' j' = m.cells i' j') :
    elt scoring a b m' i j = elt scoring a b m i j := by
  unfold elt
  rw [hr, hc]
  have h1 : (if i = m.row_begin ∨ j = m.col_begin then 0 else m'.cells (i - 1) (j - 1))
      = (if i = m.row_begin ∨ j = m.col_begin then 0 else m.cells (i - 1) (j - 1)) := by
    split
    · rfl
    · exact hcells _ _ (Or.inl (by omega))
  have h2 : (if j = m.col_begin then 0 else m'.cells i (j - 1))
      = (if j = m.col_begin then 0 else m.cells i (j - 1)) := by
    split
    · rfl
    · exact hcells _ _ (Or.inr ⟨rfl, by omega⟩)
  have h3 : (if i = m.row_begin then 0 else m'.cells (i - 1) j)
      = (if i = m.row_begin then 0 else m.cells (i - 1) j) := by
    split
    · rfl
    · exact hcells _ _ (Or.inl (by omega))
  rw [h1, h2, h3]

theorem fill_cell {α : Type} [DecidableEq α] (scoring : Scoring) (a b : List α)
    (m mx : Matrix) (i j : Nat) (hb : SameBounds m mx) (hin : m.inside i j)
    (hi : i < a.length) (hj : j < b.length) (hf : FilledBefore scoring a b mx i j) :
    ∃ mx', (do
        let v ← compute_matrix_elt scoring a b mx i j
        mx.set i j v) = .ok mx' ∧ SameBounds m mx' ∧ FilledBefore scoring a b mx' i (j + 1) ∧
      ∀ i' j', ¬ m.inside i' j' → mx'.cells i' j' = mx.cells i' j' := by
  obtain ⟨b1, b2, b3, b4⟩ := hb
  have hin' : mx.inside i j := by
    unfold Matrix.inside at hin ⊢
    rw [b1, b2, b3, b4]; exact hin
  rw [compute_matrix_elt_inside scoring a b mx i j hin' hi hj]
  refine ⟨_, Matrix.set_inside _ hin', ⟨b1, b2, b3, b4⟩, ?_, ?_⟩
  · intro i' j' hin'' hbef
    have hin3 : mx.inside i' j' := hin''
    have hsame : elt scoring a b
        { mx with cells := fun i' j' => if i' = i ∧ j' = j then elt scoring a b mx i j
            else mx.cells i' j' } i' j' = elt scoring a b mx i' j' := by
      refine elt_congr scoring a b mx _ i' j' rfl rfl hin3.1 hin3.2.2.1 ?_
      intro i2 j2 hb2
      have : ¬ (i2 = i ∧ j2 = j) := by
        unfold Before at hb2 hbef
        omega
      simp only [this, if_false]
    rw [hsame]
    by_cases hc : i' = i ∧ j' = j
    · simp only [hc, and_self, if_true]
    · simp only [hc, if_false]
      apply hf i' j' hin3
      unfold Before at hbef ⊢
      omega
  · intro i' j' hout
    have : ¬ (i' = i ∧ j' = j) := by
      rintro ⟨rfl, rfl⟩; exact hout hin
    simp only [this, if_false]

theorem fill_matrix_spec {α : Type} [DecidableEq α] (scoring : Scoring) (a b : List α)
    (m : Matrix) (hr : m.row_end ≤ a.length) (hc : m.col_end ≤ b.length) :
    ∃ m', fill_matrix scoring a b m = .ok m' ∧ SameBounds m m' ∧ Consistent scoring a b m' ∧
      ∀ i j, ¬ m.inside i j → m'.cells i j = m.cells i j := by
  unfold fill_matrix
  split
  · rename_i hempty
    refine ⟨m, rfl, ⟨rfl, rfl, rfl, rfl⟩, ?_, fun _ _ _ => rfl⟩
    intro i j hin
    unfold Matrix.inside at hin
    omega
  · rename_i hne
    have hrow := for_range_inv
      (fun i mx => for_range (fun j mx => do
        let v ← compute_matrix_elt scoring a b mx i j
        mx.set i j v) (m.col_end - m.col_begin) m.col_begin mx)
      (fun i mx => SameBounds m mx ∧ FilledBefore scoring a b mx i m.col_begin ∧
        ∀ i' j', ¬ m.inside i' j' → mx.cells i' j' = m.cells i' j')
      (m.row_end - m.row_begin) m.row_begin m
      ⟨⟨rfl, rfl, rfl, rfl⟩, ?_, fun _ _ _ => rfl⟩ ?_
    · obtain ⟨m', hm', hb, hf, hout⟩ := hrow
      refine ⟨m', hm', hb, ?_, hout⟩
      intro i j hin
      apply hf i j hin
      obtain ⟨b1, b2, b3, b4⟩ := hb
      unfold Matrix.inside at hin
      unfold Before
      omega
    · intro i' j' hin hbef
      unfold Matrix.inside at hin
      unfold Before at hbef
      omega
    · intro i mx hi1 hi2 ⟨hb, hf, hout⟩
      have hcol := for_range_inv
        (fun j mx => do
          let v ← compute_matrix_elt scoring a b mx i j
          mx.set i j v)
        (fun j mx => SameBounds m mx ∧ FilledBefore scoring a b mx i j ∧
          ∀ i' j', ¬ m.inside i' j' → mx.cells i' j' = m.cells i' j')
        (m.col_end - m.col_begin) m.col_begin mx ⟨hb, hf, hout⟩ ?_
      · obtain ⟨mx', hmx', hb', hf', hout'⟩ := hcol
        refine ⟨mx', hmx', hb', ?_, hout'⟩
        intro i' j' hin hbef
        apply hf' i' j' hin
        obtain ⟨b1, b2, b3, b4⟩ := hb'
        unfold Matrix.inside at hin
        unfold Before at hbef ⊢
        omega
      · intro j t hj1 hj2 ⟨hbt, hft, houtt⟩
        obtain ⟨t', ht', hbt', hft', houtt'⟩ :=
          fill_cell scoring a b m t i j hbt ⟨hi1, by omega, hj1, by omega⟩
            (by omega) (by omega) hft
        exact ⟨t', ht', hbt', hft', fun i' j' h => (houtt' i' j' h).trans (houtt i' j' h)⟩

/-! ## Traceback -/

theorem ok_bind {ε α β : Type} (v : α) (f : α → Except ε β) :
    ((Except.ok v : Except ε α) >>= f) = f v := rfl

theorem traceback_eq_trace {α : Type} [DecidableEq α] (scoring : Scoring) (a b : List α)
    (m : Matrix) (hr : m.row_end ≤ a.length) (hc : m.col_end ≤ b.length) :
    ∀ (fuel i j r0 c0 : Nat), m.inside i j → (i - m.row_begin) + (j - m.col_begin) < fuel →
      traceback scoring a b m fuel i j r0 c0 = .ok (trace scoring a b m fuel i j r0 c0) := by
  intro fuel
  induction fuel with
  | zero => intro i j r0 c0 _ h; omega
  | succ fuel ih =>
    intro i j r0 c0 hin hfuel
    obtain ⟨h1, h2, h3, h4⟩ := hin
    have hd : (if i > m.row_begin ∧ j > m.col_begin then do
          let upper_left ← m.get (i - 1) (j - 1)
          let ai ← seq_at a i
          let bj ← seq_at b j
          pure (decide (m.cells i j = upper_left +
            (if ai = bj then scoring.match_value else scoring.mismatch_value)))
        else pure false) = (.ok (diag_move scoring a b m i j) : Except Fault Bool) := by
      unfold diag_move match_val
      split
      · rename_i hgt
        rw [Matrix.get_inside ⟨by omega, by omega, by omega, by omega⟩, ok_bind,
          seq_at_lt a i (by omega), ok_bind, seq_at_lt b j (by omega), ok_bind]
        simp only [List.get?_eq_get (show i < a.length by omega),
          List.get?_eq_get (show j < b.length by omega), Option.some.injEq, hgt, true_and]
        rfl
      · rename_i hgt
        have : ¬ (i > m.row_begin ∧ j > m.col_begin ∧ m.cells i j = m.cells (i - 1) (j - 1) +
            if a.get? i = b.get? j then scoring.match_value else scoring.mismatch_value) :=
          fun h => hgt ⟨h.1, h.2.1⟩
        rw [decide_eq_false this]; rfl
    have hu : (if i > m.row_begin then do
          let upper ← m.get (i - 1) j
          pure (decide (m.cells i j = upper + scoring.space_value))
        else pure false) = (.ok (up_move scoring m i j) : Except Fault Bool) := by
      unfold up_move
      split
      · rename_i hgt
        rw [Matrix.get_inside ⟨by omega, by omega, by omega, by omega⟩, ok_bind]
        simp only [hgt, true_and]
        rfl
      · rename_i hgt
        have : ¬ (i > m.row_begin ∧ m.cells i j = m.cells (i - 1) j + scoring.space_value) :=
          fun h => hgt h.1
        rw [decide_eq_false this]; rfl
    have hl : (if j > m.col_begin then do
          let left ← m.get i (j - 1)
          pure (decide (m.cells i j = left + scoring.space_value))
        else pure false) = (.ok (left_move scoring m i j) : Except Fault Bool) := by
      unfold left_move
      split
      · rename_i hgt
        rw [Matrix.get_inside ⟨by omega, by omega, by omega, by omega⟩, ok_bind]
        simp only [hgt, true_and]
        rfl
      · rename_i hgt
        have : ¬ (j > m.col_begin ∧ m.cells i j = m.cells i (j - 1) + scoring.space_value) :=
          fun h => hgt h.1
        rw [decide_eq_false this]; rfl
    unfold traceback trace
    rw [Matrix.get_inside ⟨h1, h2, h3, h4⟩, ok_bind, hd, ok_bind, hu, hl]
    by_cases hpos : m.cells i j > 0
    · rw [if_pos hpos, if_pos hpos]
      by_cases c1 : diag_move scoring a b m i j = true
      · rw [if_pos c1, if_pos c1]
        have hdm := c1
        unfold diag_move at hdm
        rw [decide_eq_true_iff] at hdm
        exact ih _ _ _ _ ⟨by omega, by omega, by omega, by omega⟩ (by omega)
      · rw [if_neg c1, if_neg c1, ok_bind]
        by_cases c2 : up_move scoring m i j = true
        · rw [if_pos c2, if_pos c2]
          have hum := c2
          unfold up_move at hum
          rw [decide_eq_true_iff] at hum
          exact ih _ _ _ _ ⟨by omega, by omega, by omega, by omega⟩ (by omega)
        · rw [if_neg c2, if_neg c2, ok_bind]
          by_cases c3 : left_move scoring m i j = true
          · rw [if_pos c3, if_pos c3]
            have hlm := c3
            unfold left_move at hlm
            rw [decide_eq_true_iff] at hlm
            exact ih _ _ _ _ ⟨by omega, by omega, by omega, by omega⟩ (by omega)
          · rw [if_neg c3, if_neg c3]; rfl
    · rw [if_neg hpos, if_neg hpos]; rfl

theorem trace_spec {α : Type} [DecidableEq α] (scoring : Scoring) (a b : List α) (m : Matrix) :
    ∀ (fuel i j r0 c0 : Nat), m.row_begin ≤ i → m.col_begin ≤ j →
      (i - m.row_begin) + (j - m.col_begin) < fuel →
      (trace scoring a b m fuel i j r0 c0 = (r0, c0) ∧ m.cells i j ≤ 0) ∨
      (m.row_begin ≤ (trace scoring a b m fuel i j r0 c0).1 ∧
        (trace scoring a b m fuel i j r0 c0).1 ≤ i ∧
        m.col_begin ≤ (trace scoring a b m fuel i j r0 c0).2 ∧
        (trace scoring a b m fuel i j r0 c0).2 ≤ j ∧ 0 < m.cells i j) := by
  intro fuel
  induction fuel with
  | zero => intro i j r0 c0 _ _ h; omega
  | succ fuel ih =>
    intro i j r0 c0 hi hj hfuel
    unfold trace
    by_cases hpos : m.cells i j > 0
    · rw [if_pos hpos]
      right
      by_cases c1 : diag_move scoring a b m i j = true
      · rw [if_pos c1]
        unfold diag_move at c1
        rw [decide_eq_true_iff] at c1
        rcases ih (i - 1) (j - 1) i j (by omega) (by omega) (by omega) with h | h
        · rw [h.1]; exact ⟨hi, Nat.le_refl _, hj, Nat.le_refl _, hpos⟩
        · exact ⟨h.1, by omega, h.2.2.1, by omega, hpos⟩
      · rw [if_neg c1]
        by_cases c2 : up_move scoring m i j = true
        · rw [if_pos c2]
          unfold up_move at c2
          rw [decide_eq_true_iff] at c2
          rcases ih (i - 1) j i j (by omega) (by omega) (by omega) with h | h
          · rw [h.1]; exact ⟨hi, Nat.le_refl _, hj, Nat.le_refl _, hpos⟩
          · exact ⟨h.1, by omega, h.2.2.1, by omega, hpos⟩
        · rw [if_neg c2]
          by_cases c3 : left_move scoring m i j = true
          · rw [if_pos c3]
            unfold left_move at c3
            rw [decide_eq_true_iff] at c3
            rcases ih i (j - 1) i j (by omega) (by omega) (by omega) with h | h
            · rw [h.1]; exact ⟨hi, Nat.le_refl _, hj, Nat.le_refl _, hpos⟩
            · exact ⟨h.1, by omega, h.2.2.1, by omega, hpos⟩
          · rw [if_neg c3]
            exact ⟨hi, Nat.le_refl _, hj, Nat.le_refl _, hpos⟩
    · rw [if_neg hpos]
      left
      exact ⟨rfl, by omega⟩

/-! ## Maximum of a window -/

theorem Matrix.mem_coords (m : Matrix) (i j : Nat) : (i, j) ∈ m.coords ↔ m.inside i j := by
  unfold Matrix.coords Matrix.inside
  simp only [List.mem_flatMap, List.mem_map, List.mem_range'_1, Prod.mk.injEq]
  constructor
  · rintro ⟨i', hi', j', hj', rfl, rfl⟩
    omega
  · rintro ⟨h1, h2, h3, h4⟩
    exact ⟨i, by omega, j, by omega, rfl, rfl⟩

theorem argmax_foldl {β : Type} (f : β → Int) :
    ∀ (l : List β) (c : β),
      l.foldl (fun best c' => if f best < f c' then c' else best) c ∈ c :: l ∧
      (∀ x ∈ c :: l, f x ≤ f (l.foldl (fun best c' => if f best < f c' then c' else best) c)) ∧
      l.foldl (fun best c' => max best (f c')) (f c) =
        f (l.foldl (fun best c' => if f best < f c' then c' else best) c) := by
  intro l
  induction l with
  | nil => intro c; simp
  | cons x xs ih =>
    intro c
    simp only [List.foldl_cons]
    obtain ⟨h1, h2, h3⟩ := ih (if f c < f x then x else c)
    refine ⟨?_, ?_, ?_⟩
    · rcases List.mem_cons.1 h1 with h | h
      · rw [h]; split <;> simp
      · exact List.mem_cons_of_mem _ (List.mem_cons_of_mem _ h)
    · intro y hy
      have hc : f c ≤ f (if f c < f x then x else c) := by split <;> omega
      have hx : f x ≤ f (if f c < f x then x else c) := by split <;> omega
      have hbest := h2 _ (List.mem_cons_self _ _)
      rcases List.mem_cons.1 hy with h | h
      · rw [h]; omega
      · rcases List.mem_cons.1 h with h | h
        · rw [h]; omega
        · exact h2 y (List.mem_cons_of_mem _ h)
    · rw [← h3]
      congr 1
      split
      · rename_i h; exact max_eq_right (le_of_lt h)
      · rename_i h; exact max_eq_left (not_lt.1 h)

theorem Matrix.max_element_spec (m : Matrix) (h : m.empty = false) :
    ∃ i j, m.max_element = .ok (i, j) ∧ m.max_value = .ok (m.cells i j) ∧ m.inside i j ∧
      ∀ i' j', m.inside i' j' → m.cells i' j' ≤ m.cells i j := by
  rw [Matrix.not_empty_iff] at h
  have hmem : (m.row_begin, m.col_begin) ∈ m.coords :=
    (m.mem_coords _ _).2 ⟨Nat.le_refl _, h.1, Nat.le_refl _, h.2⟩
  unfold Matrix.max_element Matrix.max_value
  cases hco : m.coords with
  | nil => rw [hco] at hmem; cases hmem
  | cons c cs =>
    obtain ⟨h1, h2, h3⟩ := argmax_foldl (fun c : Nat × Nat => m.cells c.1 c.2) cs c
    refine ⟨_, _, rfl, ?_, ?_, ?_⟩
    · simp only; rw [← h3]
    · rw [← hco] at h1
      exact (m.mem_coords _ _).1 h1
    · intro i' j' hin
      have := (m.mem_coords _ _).2 hin
      rw [hco] at this
      exact h2 (i', j') this

theorem Matrix.max_value_empty (m : Matrix) (h : m.empty = true) :
    m.max_value = .error Fault.max_of_empty := by
  have hco : m.coords = [] := by
    cases hc : m.coords with
    | nil => rfl
    | cons c cs =>
      have hmem : (c.1, c.2) ∈ m.coords := by rw [hc]; exact List.mem_cons_self _ _
      have hin := (m.mem_coords _ _).1 hmem
      rw [Matrix.empty_iff] at h
      unfold Matrix.inside at hin
      omega
  unfold Matrix.max_value
  rw [hco]

/-! ## `find_alignment` -/

theorem find_alignment_empty {α : Type} [DecidableEq α] (scoring : Scoring) (a b : List α)
    (m : Matrix) (h : m.empty = true) : find_alignment scoring a b m = .ok m := by
  unfold find_alignment
  rw [if_pos h]; rfl

theorem find_alignment_spec {α : Type} [DecidableEq α] (scoring : Scoring) (a b : List α)
    (m : Matrix) (hr : m.row_end ≤ a.length) (hc : m.col_end ≤ b.length)
    (h : m.empty = false) :
    ∃ i j r c, m.max_element = .ok (i, j) ∧ m.max_value = .ok (m.cells i j) ∧
      m.inside i j ∧ (∀ i' j', m.inside i' j' → m.cells i' j' ≤ m.cells i j) ∧
      trace scoring a b m ((i - m.row_begin) + (j - m.col_begin) + 1) i j (i + 1) (j + 1)
        = (r, c) ∧
      find_alignment scoring a b m = .ok (Matrix.sub m r (i + 1) c (j + 1)) ∧
      ((r = i + 1 ∧ c = j + 1 ∧ m.cells i j ≤ 0) ∨
       (m.row_begin ≤ r ∧ r ≤ i ∧ m.col_begin ≤ c ∧ c ≤ j ∧ 0 < m.cells i j)) := by
  obtain ⟨i, j, hme, hmv, hin, hmax⟩ := m.max_element_spec h
  refine ⟨i, j, (trace scoring a b m ((i - m.row_begin) + (j - m.col_begin) + 1) i j
    (i + 1) (j + 1)).1, (trace scoring a b m ((i - m.row_begin) + (j - m.col_begin) + 1) i j
    (i + 1) (j + 1)).2, hme, hmv, hin, hmax, rfl, ?_, ?_⟩
  · unfold find_alignment
    rw [if_neg (by rw [h]; exact Bool.false_ne_true), hme, ok_bind]
    simp only
    rw [traceback_eq_trace scoring a b m hr hc _ i j _ _ hin (by omega), ok_bind]
    rfl
  · rcases trace_spec scoring a b m ((i - m.row_begin) + (j - m.col_begin) + 1) i j
      (i + 1) (j + 1) hin.1 hin.2.2.1 (by omega) with h | h
    · left; rw [h.1]; exact ⟨rfl, rfl, h.2⟩
    · right; exact h

/-! ## `update_matrix` -/

theorem update_cell {α : Type} [DecidableEq α] (scoring : Scoring) (a b : List α)
    (m : Matrix) (s : Matrix × Int) (i j : Nat) (hb : SameBounds m s.1) (hin : m.inside i j)
    (hi : i < a.length) (hj : j < b.length) (hf : FilledBefore scoring a b s.1 i j) :
    ∃ s' : Matrix × Int, (do
        let newval ← compute_matrix_elt scoring a b s.1 i j
        let old ← s.1.get i j
        if newval ≠ old then do
          let mx ← s.1.set i j newval
          pure (mx, (j : Int))
        else pure s) = .ok s' ∧ SameBounds m s'.1 ∧ FilledBefore scoring a b s'.1 i (j + 1) ∧
      ∀ i' j', ¬ m.inside i' j' → s'.1.cells i' j' = s.1.cells i' j' := by
  obtain ⟨mx, last⟩ := s
  simp only at hb hf ⊢
  have hb' := hb
  obtain ⟨b1, b2, b3, b4⟩ := hb
  have hin' : mx.inside i j := by
    unfold Matrix.inside at hin ⊢
    rw [b1, b2, b3, b4]; exact hin
  obtain ⟨mx', hmx', hbx, hfx, houtx⟩ := fill_cell scoring a b m mx i j hb' hin hi hj hf
  rw [compute_matrix_elt_inside scoring a b mx i j hin' hi hj, ok_bind] at hmx'
  rw [compute_matrix_elt_inside scoring a b mx i j hin' hi hj, ok_bind,
    Matrix.get_inside hin', ok_bind]
  by_cases hne : elt scoring a b mx i j ≠ mx.cells i j
  · rw [if_pos hne, hmx', ok_bind]
    exact ⟨_, rfl, hbx, hfx, houtx⟩
  · rw [if_neg hne]
    refine ⟨_, rfl, hb', ?_, fun _ _ _ => rfl⟩
    intro i' j' hin2 hbef
    by_cases hc : i' = i ∧ j' = j
    · obtain ⟨rfl, rfl⟩ := hc
      exact (not_not.1 hne).symm
    · apply hf i' j' hin2
      unfold Before at hbef ⊢
      omega

theorem update_matrix_spec {α : Type} [DecidableEq α] (scoring : Scoring) (a b : List α)
    (m : Matrix) (hr : m.row_end ≤ a.length) (hc : m.col_end ≤ b.length) :
    ∃ m', update_matrix scoring a b m = .ok m' ∧ SameBounds m m' ∧ Consistent scoring a b m' ∧
      ∀ i j, ¬ m.inside i j → m'.cells i j = m.cells i j := by
  have hrow := for_range_inv
    (fun i (st : Matrix × Int × Int) => do
      let last_updated_col_prev := st.2.1
      let inner ← for_range (fun j (s : Matrix × Int) => do
          let newval ← compute_matrix_elt scoring a b s.1 i j
          let old ← s.1.get i j
          if newval ≠ old then do
            let mx ← s.1.set i j newval
            pure (mx, (j : Int))
          else pure s)
        (m.col_end - m.col_begin) m.col_begin (st.1, -1)
      pure (inner.1, inner.2, last_updated_col_prev))
    (fun i st => SameBounds m st.1 ∧ FilledBefore scoring a b st.1 i m.col_begin ∧
      ∀ i' j', ¬ m.inside i' j' → st.1.cells i' j' = m.cells i' j')
    (m.row_end - m.row_begin) m.row_begin (m, -1, -1)
    ⟨⟨rfl, rfl, rfl, rfl⟩, ?_, fun _ _ _ => rfl⟩ ?_
  · obtain ⟨st, hst, hb, hf, hout⟩ := hrow
    refine ⟨st.1, ?_, hb, ?_, hout⟩
    · unfold update_matrix
      rw [hst, ok_bind]; rfl
    · intro i j hin
      apply hf i j hin
      obtain ⟨b1, b2, b3, b4⟩ := hb
      unfold Matrix.inside at hin
      unfold Before
      by_cases hle : m.row_begin ≤ m.row_end
      · omega
      · omega
  · intro i' j' hin hbef
    dsimp only at hin
    unfold Matrix.inside at hin
    unfold Before at hbef
    omega
  · intro i st hi1 hi2 ⟨hb, hf, hout⟩
    have hcol := for_range_inv
      (fun j (s : Matrix × Int) => do
          let newval ← compute_matrix_elt scoring a b s.1 i j
          let old ← s.1.get i j
          if newval ≠ old then do
            let mx ← s.1.set i j newval
            pure (mx, (j : Int))
          else pure s)
      (fun j s => SameBounds m s.1 ∧ FilledBefore scoring a b s.1 i j ∧
        ∀ i' j', ¬ m.inside i' j' → s.1.cells i' j' = m.cells i' j')
      (m.col_end - m.col_begin) m.col_begin (st.1, -1) ⟨hb, hf, hout⟩ ?_
    · obtain ⟨s', hs', hb', hf', hout'⟩ := hcol
      refine ⟨(s'.1, s'.2, st.2.1), ?_, hb', ?_, hout'⟩
      · simp only [hs', ok_bind]; rfl
      · intro i' j' hin hbef
        dsimp only at hin ⊢
        apply hf' i' j' hin
        obtain ⟨b1, b2, b3, b4⟩ := hb'
        unfold Matrix.inside at hin
        unfold Before at hbef ⊢
        omega
    · intro j t hj1 hj2 ⟨hbt, hft, houtt⟩
      obtain ⟨t', ht', hbt', hft', houtt'⟩ :=
        update_cell scoring a b m t i j hbt ⟨hi1, by omega, hj1, by omega⟩
          (by omega) (by omega) hft
      exact ⟨t', ht', hbt', hft', fun i' j' h => (houtt' i' j' h).trans (houtt i' j' h)⟩

/-! ## `remove_alignment` -/

theorem push_if_not_empty_eq (vec : List Matrix) (mx : Matrix) :
    push_if_not_empty vec mx = vec ++ keep mx := by
  unfold push_if_not_empty keep
  cases mx.empty <;> simp

theorem remove_alignment_step_eq (alignment : Matrix) (acc : List Matrix × List Matrix)
    (mx : Matrix) :
    remove_alignment_step alignment acc mx =
      (acc.1 ++ unaffected_pieces alignment mx, acc.2 ++ affected_pieces alignment mx) := by
  unfold unaffected_pieces affected_pieces remove_alignment_step
  simp only [push_if_not_empty_eq]
  split
  · simp
  · split
    · simp
    · split
      · simp
      · simp

theorem remove_alignment_fold (alignment : Matrix) :
    ∀ (matrices : List Matrix) (acc : List Matrix × List Matrix),
      matrices.foldl (remove_alignment_step alignment) acc =
        (acc.1 ++ matrices.flatMap (unaffected_pieces alignment),
         acc.2 ++ matrices.flatMap (affected_pieces alignment)) := by
  intro matrices
  induction matrices with
  | nil => intro acc; simp
  | cons mx rest ih =>
    intro acc
    rw [List.foldl_cons, ih, remove_alignment_step_eq]
    simp [List.flatMap_cons]

theorem remove_alignment_eq (matrices : List Matrix) (alignment : Matrix) :
    remove_alignment matrices alignment =
      (matrices.flatMap (unaffected_pieces alignment),
       matrices.flatMap (affected_pieces alignment)) := by
  unfold remove_alignment
  rw [remove_alignment_fold]
  simp

theorem mem_keep {p mx : Matrix} (h : p ∈ keep mx) : p = mx ∧ mx.empty = false := by
  unfold keep at h
  cases hm : mx.empty
  · rw [hm] at h
    simp at h
    exact ⟨h, rfl⟩
  · rw [hm] at h
    simp at h

theorem sub_cells_inside (mx : Matrix) (rb re cb ce i j : Nat)
    (h : (Matrix.sub mx rb re cb ce).inside i j) :
    (Matrix.sub mx rb re cb ce).cells i j = mx.cells i j := by
  unfold Matrix.inside Matrix.sub at h
  simp only at h
  unfold Matrix.sub
  simp only
  rw [if_pos h]

theorem pieces_spec (alignment mx p : Matrix) (hmx : mx.empty = false)
    (hp : p ∈ unaffected_pieces alignment mx ∨ p ∈ affected_pieces alignment mx) :
    PieceOf alignment mx p := by
  unfold unaffected_pieces affected_pieces remove_alignment_step at hp
  simp only [push_if_not_empty_eq, List.nil_append, Bool.and_eq_true, Bool.not_eq_true',
    Bool.or_eq_false_iff, decide_eq_false_iff_not, Nat.not_le] at hp
  have key : ∀ rb re cb ce, p ∈ keep (Matrix.sub mx rb re cb ce) →
      mx.row_begin ≤ rb → re ≤ mx.row_end → mx.col_begin ≤ cb → ce ≤ mx.col_end →
      (re ≤ alignment.row_begin ∨ alignment.row_end ≤ rb) →
      (ce ≤ alignment.col_begin ∨ alignment.col_end ≤ cb) → PieceOf alignment mx p := by
    intro rb re cb ce hmem h1 h2 h3 h4 h5 h6
    obtain ⟨rfl, hne⟩ := mem_keep hmem
    exact ⟨hne, h1, h2, h3, h4, h5, h6, fun i j h => sub_cells_inside mx rb re cb ce i j h⟩
  rw [Matrix.not_empty_iff] at hmx
  split at hp
  · rename_i hc
    simp only [List.mem_append] at hp
    rcases hp with hp | (hp | hp) | hp
    · exact key _ _ _ _ hp (by omega) (by omega) (by omega) (by omega) (by omega) (by omega)
    · exact key _ _ _ _ hp (by omega) (by omega) (by omega) (by omega) (by omega) (by omega)
    · exact key _ _ _ _ hp (by omega) (by omega) (by omega) (by omega) (by omega) (by omega)
    · exact key _ _ _ _ hp (by omega) (by omega) (by omega) (by omega) (by omega) (by omega)
  · rename_i hc
    split at hp
    · rename_i hr
      simp only [List.mem_append, List.not_mem_nil, false_or] at hp
      rcases hp with hp | hp
      · exact key _ _ _ _ hp (by omega) (by omega) (by omega) (by omega) (by omega) (by omega)
      · exact key _ _ _ _ hp (by omega) (by omega) (by omega) (by omega) (by omega) (by omega)
    · rename_i hr
      split at hp
      · rename_i hcc
        simp only [List.mem_append, List.not_mem_nil, false_or] at hp
        rcases hp with hp | hp
        · exact key _ _ _ _ hp (by omega) (by omega) (by omega) (by omega) (by omega) (by omega)
        · exact key _ _ _ _ hp (by omega) (by omega) (by omega) (by omega) (by omega) (by omega)
      · rename_i hcc
        simp only [List.mem_singleton, List.not_mem_nil, or_false] at hp
        subst hp
        refine ⟨(Matrix.not_empty_iff _).2 hmx, Nat.le_refl _, Nat.le_refl _, Nat.le_refl _,
          Nat.le_refl _, by omega, by omega, fun _ _ _ => rfl⟩

theorem total_area_append (l l' : List Matrix) :
    total_area (l ++ l') = total_area l + total_area l' := by
  unfold total_area
  rw [List.map_append, List.sum_append]

theorem total_area_keep (mx : Matrix) : total_area (keep mx) = mx.area := by
  unfold keep total_area
  cases h : mx.empty
  · simp
  · simp only [if_true, List.map_nil, List.sum_nil]
    unfold Matrix.empty at h
    exact (of_decide_eq_true h).symm

theorem area_sub (mx : Matrix) (rb re cb ce : Nat) :
    (Matrix.sub mx rb re cb ce).area = (re - rb) * (ce - cb) := rfl

theorem four_blocks (x1 x2 y1 y2 X Y : Nat) (hx : x1 + x2 ≤ X) (hy : y1 + y2 ≤ Y) :
    x1 * y1 + x1 * y2 + x2 * y1 + x2 * y2 ≤ X * Y := by
  have : x1 * y1 + x1 * y2 + x2 * y1 + x2 * y2 = (x1 + x2) * (y1 + y2) := by ring
  rw [this]
  exact Nat.mul_le_mul hx hy

theorem four_blocks_lt (x1 x2 y1 y2 X Y : Nat) (hx : x1 + x2 < X) (hy : y1 + y2 ≤ Y)
    (hY : 0 < Y) : x1 * y1 + x1 * y2 + x2 * y1 + x2 * y2 < X * Y := by
  have : x1 * y1 + x1 * y2 + x2 * y1 + x2 * y2 = (x1 + x2) * (y1 + y2) := by ring
  rw [this]
  calc (x1 + x2) * (y1 + y2) ≤ (x1 + x2) * Y := Nat.mul_le_mul_left _ hy
    _ < X * Y := Nat.mul_lt_mul_of_pos_right hx hY

theorem two_blocks (x1 x2 X Y : Nat) (hx : x1 + x2 ≤ X) : x1 * Y + x2 * Y ≤ X * Y := by
  rw [← Nat.add_mul]
  exact Nat.mul_le_mul_right _ hx

theorem two_blocks' (y1 y2 X Y : Nat) (hy : y1 + y2 ≤ Y) : X * y1 + X * y2 ≤ X * Y := by
  rw [← Nat.mul_add]
  exact Nat.mul_le_mul_left _ hy

/-- The pieces of a window have no more cells than the window. -/
theorem pieces_area_le (alignment mx : Matrix)
    (hr : alignment.row_begin ≤ alignment.row_end)
    (hc : alignment.col_begin ≤ alignment.col_end) :
    total_area (unaffected_pieces alignment mx) + total_area (affected_pieces alignment mx)
      ≤ mx.area := by
  unfold unaffected_pieces affected_pieces remove_alignment_step
  simp only [push_if_not_empty_eq, List.nil_append, Bool.and_eq_true, Bool.not_eq_true',
    Bool.or_eq_false_iff, decide_eq_false_iff_not, Nat.not_le]
  split
  · simp only [total_area_append, total_area_keep, area_sub]
    have := four_blocks (alignment.row_begin - mx.row_begin) (mx.row_end - alignment.row_end)
      (alignment.col_begin - mx.col_begin) (mx.col_end - alignment.col_end)
      (mx.row_end - mx.row_begin) (mx.col_end - mx.col_begin) (by omega) (by omega)
    unfold Matrix.area
    omega
  · split
    · simp only [total_area_append, total_area_keep, area_sub]
      have := two_blocks (alignment.row_begin - mx.row_begin) (mx.row_end - alignment.row_end)
        (mx.row_end - mx.row_begin) (mx.col_end - mx.col_begin) (by omega)
      unfold Matrix.area total_area
      simp only [List.map_nil, List.sum_nil]
      omega
    · split
      · simp only [total_area_append, total_area_keep, area_sub]
        have := two_blocks' (alignment.col_begin - mx.col_begin)
          (mx.col_end - alignment.col_end)
          (mx.row_end - mx.row_begin) (mx.col_end - mx.col_begin) (by omega)
        unfold Matrix.area total_area
        simp only [List.map_nil, List.sum_nil]
        omega
      · unfold total_area
        simp

/-- A non-empty window that contains a non-empty alignment loses cells. -/
theorem pieces_area_lt (alignment mx : Matrix)
    (hr : alignment.row_begin < alignment.row_end)
    (hc : alignment.col_begin < alignment.col_end)
    (h1 : mx.row_begin ≤ alignment.row_begin) (h2 : alignment.row_end ≤ mx.row_end)
    (h3 : mx.col_begin ≤ alignment.col_begin) (h4 : alignment.col_end ≤ mx.col_end) :
    total_area (unaffected_pieces alignment mx) + total_area (affected_pieces alignment mx)
      < mx.area := by
  unfold unaffected_pieces affected_pieces remove_alignment_step
  simp only [push_if_not_empty_eq, List.nil_append, Bool.and_eq_true, Bool.not_eq_true',
    Bool.or_eq_false_iff, decide_eq_false_iff_not, Nat.not_le]
  rw [if_pos (by omega)]
  simp only [total_area_append, total_area_keep, area_sub]
  have := four_blocks_lt (alignment.row_begin - mx.row_begin) (mx.row_end - alignment.row_end)
    (alignment.col_begin - mx.col_begin) (mx.col_end - alignment.col_end)
    (mx.row_end - mx.row_begin) (mx.col_end - mx.col_begin) (by omega) (by omega) (by omega)
  unfold Matrix.area
  omega

theorem total_area_flatMap_le (f g : Matrix → List Matrix) :
    ∀ (l : List Matrix), (∀ m ∈ l, total_area (f m) + total_area (g m) ≤ m.area) →
      total_area (l.flatMap f) + total_area (l.flatMap g) ≤ total_area l := by
  intro l
  induction l with
  | nil => intro _; simp [total_area]
  | cons x xs ih =>
    intro h
    have hx := h x (List.mem_cons_self _ _)
    have hxs := ih (fun m hm => h m (List.mem_cons_of_mem _ hm))
    simp only [List.flatMap_cons, total_area_append]
    have : total_area (x :: xs) = x.area + total_area xs := by simp [total_area]
    omega

theorem total_area_flatMap_lt (f g : Matrix → List Matrix) :
    ∀ (l : List Matrix), (∀ m ∈ l, total_area (f m) + total_area (g m) ≤ m.area) →
      (∃ m ∈ l, total_area (f m) + total_area (g m) < m.area) →
      total_area (l.flatMap f) + total_area (l.flatMap g) < total_area l := by
  intro l
  induction l with
  | nil => intro _ ⟨m, hm, _⟩; cases hm
  | cons x xs ih =>
    intro h ⟨m, hm, hlt⟩
    have hx := h x (List.mem_cons_self _ _)
    have hall : ∀ m ∈ xs, total_area (f m) + total_area (g m) ≤ m.area :=
      fun m hm => h m (List.mem_cons_of_mem _ hm)
    simp only [List.flatMap_cons, total_area_append]
    have hcons : total_area (x :: xs) = x.area + total_area xs := by simp [total_area]
    rcases List.mem_cons.1 hm with rfl | hm'
    · have := total_area_flatMap_le f g xs hall
      omega
    · have := ih hall ⟨m, hm', hlt⟩
      omega

/-! ## One iteration of the loop of `similarity` -/

theorem Matrix.max_value_eq_maxv (m : Matrix) (h : m.empty = false) :
    m.max_value = .ok m.maxv := by
  obtain ⟨i, j, _, hv, _, _⟩ := m.max_element_spec h
  unfold Matrix.maxv
  rw [hv]

theorem mapM_max_value :
    ∀ (matrices : List Matrix), (∀ m ∈ matrices, m.empty = false) →
      matrices.mapM Matrix.max_value = .ok (matrices.map Matrix.maxv) := by
  intro matrices
  induction matrices with
  | nil => intro _; rfl
  | cons m rest ih =>
    intro h
    rw [List.mapM_cons, Matrix.max_value_eq_maxv m (h m (List.mem_cons_self _ _)),
      ih (fun x hx => h x (List.mem_cons_of_mem _ hx))]
    rfl

theorem max_index_lt :
    ∀ (xs : List Int) (k best : Nat) (bestv : Int), best < k →
      max_index xs k best bestv < k + xs.length := by
  intro xs
  induction xs with
  | nil => intro k best bestv h; simpa [max_index] using h
  | cons x xs ih =>
    intro k best bestv h
    unfold max_index
    split
    · have := ih (k + 1) k x (by omega)
      simp only [List.length_cons]; omega
    · have := ih (k + 1) best bestv (by omega)
      simp only [List.length_cons]; omega

theorem choose_alignment_spec {α : Type} [DecidableEq α] (scoring : Scoring) (a b : List α)
    (matrices : List Matrix) (hinv : Candidates a b matrices) (hne : matrices ≠ []) :
    ∃ best ∈ matrices,
      choose_alignment scoring a b matrices = find_alignment scoring a b best := by
  unfold choose_alignment
  rw [mapM_max_value matrices (fun m hm => (hinv m hm).1), ok_bind]
  cases matrices with
  | nil => exact absurd rfl hne
  | cons m rest =>
    simp only [List.map_cons]
    have hlt := max_index_lt (rest.map Matrix.maxv) 1 0 m.maxv (by omega)
    rw [List.length_map] at hlt
    have hlt' : max_index (rest.map Matrix.maxv) 1 0 m.maxv < (m :: rest).length := by
      simp only [List.length_cons]; omega
    rw [List.get?_eq_get hlt']
    exact ⟨_, List.get_mem _ _ _, rfl⟩

theorem mapM_update_matrix {α : Type} [DecidableEq α] (scoring : Scoring) (a b : List α) :
    ∀ (l : List Matrix), (∀ m ∈ l, m.row_end ≤ a.length ∧ m.col_end ≤ b.length) →
      ∃ l', l.mapM (update_matrix scoring a b) = .ok l' ∧
        total_area l' = total_area l ∧
        ∀ p' ∈ l', Consistent scoring a b p' ∧ ∃ p ∈ l, SameBounds p p' := by
  intro l
  induction l with
  | nil => intro _; exact ⟨[], rfl, rfl, fun _ h => by cases h⟩
  | cons m rest ih =>
    intro h
    obtain ⟨hr, hc⟩ := h m (List.mem_cons_self _ _)
    obtain ⟨m', hm', hb, hcons, _⟩ := update_matrix_spec scoring a b m hr hc
    obtain ⟨l', hl', harea, hall⟩ := ih (fun x hx => h x (List.mem_cons_of_mem _ hx))
    refine ⟨m' :: l', ?_, ?_, ?_⟩
    · rw [List.mapM_cons, hm', hl']; rfl
    · obtain ⟨b1, b2, b3, b4⟩ := hb
      unfold total_area at harea ⊢
      simp only [List.map_cons, List.sum_cons, harea]
      unfold Matrix.area
      rw [b1, b2, b3, b4]
    · intro p' hp'
      rcases List.mem_cons.1 hp' with rfl | hp'
      · exact ⟨hcons, m, List.mem_cons_self _ _, hb⟩
      · obtain ⟨hc', p, hp, hbp⟩ := hall p' hp'
        exact ⟨hc', p, List.mem_cons_of_mem _ hp, hbp⟩

theorem similarity_step_spec {α : Type} [DecidableEq α] (scoring : Scoring) (a b : List α)
    (ms : List Matrix) (hinv : Candidates a b ms) (hne : ms ≠ []) :
    (∃ al, similarity_step scoring a b ms = .ok (Step.stop al) ∧
      ∃ best ∈ ms, ∀ i j, al.inside i j → best.inside i j) ∨
    ∃ inc al ms', similarity_step scoring a b ms = .ok (Step.next inc al ms') ∧
      Accepted scoring a b ms inc al ms' := by
  obtain ⟨best, hbest, hchoose⟩ := choose_alignment_spec scoring a b ms hinv hne
  obtain ⟨hbne, hbr, hbc⟩ := hinv best hbest
  obtain ⟨i, j, r, c, hme, hmv, hin, hmax, htr, hfa, hcase⟩ :=
    find_alignment_spec scoring a b best hbr hbc hbne
  have hmaxv : best.maxv = best.cells i j := by
    have := Matrix.max_value_eq_maxv best hbne
    rw [hmv] at this
    exact (Except.ok.inj this).symm
  unfold similarity_step
  rw [hchoose, hfa, ok_bind]
  generalize hal : Matrix.sub best r (i + 1) c (j + 1) = al at *
  have hb1 : al.row_begin = r := by rw [← hal]; rfl
  have hb2 : al.row_end = i + 1 := by rw [← hal]; rfl
  have hb3 : al.col_begin = c := by rw [← hal]; rfl
  have hb4 : al.col_end = j + 1 := by rw [← hal]; rfl
  have hsubset : ∀ i' j', al.inside i' j' → best.inside i' j' := by
    intro i' j' h'
    unfold Matrix.inside at h' hin ⊢
    rw [hb1, hb2, hb3, hb4] at h'
    omega
  by_cases hstop : al.empty = true ∨ al.row_end - al.row_begin < scoring.min_len ∨
      al.col_end - al.col_begin < scoring.min_len
  · left
    rw [if_pos hstop]
    exact ⟨al, rfl, best, hbest, hsubset⟩
  · rw [if_neg hstop]
    have hane : al.empty = false := by
      cases h : al.empty
      · rfl
      · exact absurd (Or.inl h) hstop
    have hane' := (Matrix.not_empty_iff al).1 hane
    rw [hb1, hb2, hb3, hb4] at hane'
    have hpos : best.row_begin ≤ r ∧ r ≤ i ∧ best.col_begin ≤ c ∧ c ≤ j ∧
        0 < best.cells i j := by
      rcases hcase with h | h
      · omega
      · exact h
    have hins : al.inside (al.row_end - 1) (al.col_end - 1) := by
      unfold Matrix.inside
      rw [hb1, hb2, hb3, hb4]
      omega
    have hcell : al.cells (al.row_end - 1) (al.col_end - 1) = best.cells i j := by
      have h1 : al.row_end - 1 = i := by rw [hb2]; omega
      have h2 : al.col_end - 1 = j := by rw [hb4]; omega
      rw [h1, h2] at hins ⊢
      rw [← hal] at hins ⊢
      exact sub_cells_inside best r (i + 1) c (j + 1) i j hins
    have hget : al.get (al.row_end - 1) (al.col_end - 1) = .ok best.maxv := by
      rw [Matrix.get_inside hins, hcell, hmaxv]
    rw [hget, ok_bind]
    simp only
    by_cases hinc : best.maxv + scoring.part_value ≤ 0
    · left
      rw [if_pos hinc]
      exact ⟨al, rfl, best, hbest, hsubset⟩
    · rw [if_neg hinc, remove_alignment_eq]
      simp only
      have hpieces : ∀ mx ∈ ms, ∀ p, (p ∈ unaffected_pieces al mx ∨ p ∈ affected_pieces al mx) →
          PieceOf al mx p := fun mx hmx p hp => pieces_spec al mx p (hinv mx hmx).1 hp
      have haff : ∀ m ∈ ms.flatMap (affected_pieces al),
          m.row_end ≤ a.length ∧ m.col_end ≤ b.length := by
        intro p hp
        obtain ⟨mx, hmx, hpmx⟩ := List.mem_flatMap.1 hp
        obtain ⟨_, _, h2, _, h4, _⟩ := hpieces mx hmx p (Or.inr hpmx)
        obtain ⟨_, h5, h6⟩ := hinv mx hmx
        omega
      obtain ⟨aff', haff', harea, hall⟩ :=
        mapM_update_matrix scoring a b (ms.flatMap (affected_pieces al)) haff
      rw [haff', ok_bind]
      right
      have hdesc : ∀ p ∈ ms.flatMap (unaffected_pieces al) ++ aff', ∃ mx ∈ ms,
          p.empty = false ∧
          mx.row_begin ≤ p.row_begin ∧ p.row_end ≤ mx.row_end ∧
          mx.col_begin ≤ p.col_begin ∧ p.col_end ≤ mx.col_end ∧
          (p.row_end ≤ al.row_begin ∨ al.row_end ≤ p.row_begin) ∧
          (p.col_end ≤ al.col_begin ∨ al.col_end ≤ p.col_begin) := by
        intro p hp
        rcases List.mem_append.1 hp with hp | hp
        · obtain ⟨mx, hmx, hpmx⟩ := List.mem_flatMap.1 hp
          obtain ⟨h0, h1, h2, h3, h4, h5, h6, _⟩ := hpieces mx hmx p (Or.inl hpmx)
          exact ⟨mx, hmx, h0, h1, h2, h3, h4, h5, h6⟩
        · obtain ⟨_, q, hq, e1, e2, e3, e4⟩ := hall p hp
          obtain ⟨mx, hmx, hqmx⟩ := List.mem_flatMap.1 hq
          obtain ⟨h0, h1, h2, h3, h4, h5, h6, _⟩ := hpieces mx hmx q (Or.inr hqmx)
          refine ⟨mx, hmx, ?_, ?_⟩
          · rw [Matrix.not_empty_iff] at h0 ⊢
            omega
          · omega
      refine ⟨_, _, _, rfl, ?_⟩
      refine
        { inc_pos := by omega
          rows := by omega
          cols := by omega
          min_rows := by omega
          min_cols := by omega
          best := ⟨best, hbest, hfa, by omega, by
            have := hin.2.1
            omega, by omega, by
            have := hin.2.2.2
            omega, hget, rfl⟩
          cands := ?_
          area := ?_
          descend := ?_ }
      · intro p hp
        obtain ⟨mx, hmx, h0, h1, h2, h3, h4, _⟩ := hdesc p hp
        obtain ⟨_, h5, h6⟩ := hinv mx hmx
        exact ⟨h0, by omega, by omega⟩
      · rw [total_area_append, harea]
        apply total_area_flatMap_lt
        · intro m _
          exact pieces_area_le al m (by omega) (by omega)
        · refine ⟨best, hbest, pieces_area_lt al best (by omega) (by omega) (by omega) ?_
            (by omega) ?_⟩
          · have := hin.2.1
            omega
          · have := hin.2.2.2
            omega
      · intro p hp
        obtain ⟨mx, hmx, _, h⟩ := hdesc p hp
        exact ⟨mx, hmx, h⟩

/-! ## Runs of the loop -/

theorem similarity_run_result {α : Type} [DecidableEq α] (scoring : Scoring) (a b : List α) :
    ∀ (fuel : Nat) (total : Int) (ms : List Matrix),
      (similarity_run scoring a b fuel total ms).result
        = similarity_loop scoring a b fuel total ms := by
  intro fuel
  induction fuel with
  | zero => intro total ms; rfl
  | succ fuel ih =>
    intro total ms
    unfold similarity_run similarity_loop
    split
    · rfl
    · cases hstep : similarity_step scoring a b ms with
      | error e => rfl
      | ok st =>
        cases st with
        | stop al => rfl
        | next inc al ms' => exact ih _ _

theorem similarity_trace_result {α : Type} [DecidableEq α] (scoring : Scoring) (a b : List α) :
    (similarity_trace scoring a b).result = similarity scoring a b := by
  unfold similarity_trace similarity
  cases fill_matrix scoring a b (Matrix.full a.length b.length) with
  | error e => rfl
  | ok m => exact similarity_run_result scoring a b _ _ _

theorem similarity_run_spec {α : Type} [DecidableEq α] (scoring : Scoring) (a b : List α) :
    ∀ (fuel : Nat) (total : Int) (ms : List Matrix), Candidates a b ms →
      total_area ms < fuel →
      (similarity_run scoring a b fuel total ms).result =
        .ok (total + ((similarity_run scoring a b fuel total ms).accepted.map Prod.fst).sum) ∧
      Chain scoring a b ms (similarity_run scoring a b fuel total ms).accepted
        (similarity_run scoring a b fuel total ms).rejected
        (similarity_run scoring a b fuel total ms).iterations := by
  intro fuel
  induction fuel with
  | zero => intro total ms _ h; omega
  | succ fuel ih =>
    intro total ms hinv hfuel
    unfold similarity_run
    cases ms with
    | nil =>
      simp only [List.isEmpty_nil, if_true, List.map_nil, List.sum_nil, add_zero, true_and]
      exact Chain.exhausted
    | cons m rest =>
      have hne : m :: rest ≠ [] := List.cons_ne_nil _ _
      simp only [List.isEmpty_cons, Bool.false_eq_true, if_false]
      rcases similarity_step_spec scoring a b (m :: rest) hinv hne with
        ⟨al, h, hal⟩ | ⟨inc, al, ms', h, hacc⟩
      · rw [h]
        simp only [List.map_nil, List.sum_nil, add_zero, true_and]
        exact Chain.stopped _ al hne hal
      · rw [h]
        simp only
        obtain ⟨h1, h2⟩ := ih (total + inc) ms' hacc.cands (by have := hacc.area; omega)
        refine ⟨?_, Chain.accepted _ _ _ _ _ _ _ hne hacc h2⟩
        rw [h1, List.map_cons, List.sum_cons, add_assoc]

/-! ## Whole runs -/

theorem error_bind {ε α β : Type} (e : ε) (f : α → Except ε β) :
    ((Except.error e : Except ε α) >>= f) = .error e := rfl

theorem fill_matrix_full_empty {α : Type} [DecidableEq α] (scoring : Scoring) (a b : List α)
    (h : a = [] ∨ b = []) :
    fill_matrix scoring a b (Matrix.full a.length b.length)
      = .ok (Matrix.full a.length b.length) ∧
    (Matrix.full a.length b.length).empty = true := by
  have hlen : a.length = 0 ∨ b.length = 0 := by
    rcases h with h | h
    · left; rw [h]; rfl
    · right; rw [h]; rfl
  constructor
  · unfold fill_matrix
    rw [if_pos]
    · rfl
    · unfold Matrix.full; simp only; omega
  · rw [Matrix.empty_iff]
    unfold Matrix.full; simp only; omega

theorem choose_alignment_head_empty {α : Type} [DecidableEq α] (scoring : Scoring)
    (a b : List α) (m : Matrix) (rest : List Matrix) (h : m.empty = true) :
    choose_alignment scoring a b (m :: rest) = .error Fault.max_of_empty := by
  unfold choose_alignment
  rw [List.mapM_cons, Matrix.max_value_empty m h]
  rfl

theorem similarity_step_head_empty {α : Type} [DecidableEq α] (scoring : Scoring)
    (a b : List α) (m : Matrix) (rest : List Matrix) (h : m.empty = true) :
    similarity_step scoring a b (m :: rest) = .error Fault.max_of_empty := by
  unfold similarity_step
  rw [choose_alignment_head_empty scoring a b m rest h]
  rfl

theorem similarity_trace_empty {α : Type} [DecidableEq α] (scoring : Scoring) (a b : List α)
    (h : a = [] ∨ b = []) :
    similarity_trace scoring a b =
      { result := .error Fault.max_of_empty, iterations := 1, accepted := [],
        rejected := none } := by
  obtain ⟨hfill, hempty⟩ := fill_matrix_full_empty scoring a b h
  unfold similarity_trace
  rw [hfill]
  simp only
  unfold similarity_run
  simp only [List.isEmpty_cons, Bool.false_eq_true, if_false]
  rw [similarity_step_head_empty scoring a b _ [] hempty]

theorem similarity_empty {α : Type} [DecidableEq α] (scoring : Scoring) (a b : List α)
    (h : a = [] ∨ b = []) : similarity scoring a b = .error Fault.max_of_empty := by
  rw [← similarity_trace_result, similarity_trace_empty scoring a b h]

theorem similarity_trace_spec {α : Type} [DecidableEq α] (scoring : Scoring) (a b : List α)
    (ha : a ≠ []) (hb : b ≠ []) :
    ∃ m, fill_matrix scoring a b (Matrix.full a.length b.length) = .ok m ∧
      SameBounds (Matrix.full a.length b.length) m ∧ Consistent scoring a b m ∧
      (similarity_trace scoring a b).result =
        .ok (((similarity_trace scoring a b).accepted.map Prod.fst).sum) ∧
      Chain scoring a b [m] (similarity_trace scoring a b).accepted
        (similarity_trace scoring a b).rejected
        (similarity_trace scoring a b).iterations := by
  obtain ⟨m, hm, hbounds, hcons, _⟩ := fill_matrix_spec scoring a b
    (Matrix.full a.length b.length) (Nat.le_refl _) (Nat.le_refl _)
  have hla : 0 < a.length := List.length_pos.2 ha
  have hlb : 0 < b.length := List.length_pos.2 hb
  obtain ⟨b1, b2, b3, b4⟩ := hbounds
  have e1 : m.row_begin = 0 := b1
  have e2 : m.row_end = a.length := b2
  have e3 : m.col_begin = 0 := b3
  have e4 : m.col_end = b.length := b4
  have hcand : Candidates a b [m] := by
    intro x hx
    rw [List.mem_singleton] at hx
    subst hx
    refine ⟨(Matrix.not_empty_iff _).2 ⟨by omega, by omega⟩, by omega, by omega⟩
  have harea : total_area [m] < a.length * b.length + 2 := by
    unfold total_area Matrix.area
    simp only [List.map_cons, List.map_nil, List.sum_cons, List.sum_nil, e1, e2, e3, e4,
      Nat.sub_zero, add_zero]
    omega
  obtain ⟨h1, h2⟩ := similarity_run_spec scoring a b _ 0 [m] hcand harea
  refine ⟨m, hm, ⟨b1, b2, b3, b4⟩, hcons, ?_, ?_⟩
  · unfold similarity_trace
    rw [hm]
    simp only
    rw [h1, zero_add]
  · unfold similarity_trace
    rw [hm]
    exact h2

/-- C4: with an empty sequence `similarity` returns no score: the empty initial window
is made a candidate, `choose_alignment` takes its `max_value`, and the run ends there
with the precondition of `max_value` violated. -/
theorem similarity_empty_input {α : Type} [DecidableEq α] (scoring : Scoring) (a b : List α) :
    similarity scoring ([] : List α) b = .error Fault.max_of_empty ∧
    similarity scoring a ([] : List α) = .error Fault.max_of_empty :=
  ⟨similarity_empty scoring [] b (Or.inl rfl), similarity_empty scoring a [] (Or.inr rfl)⟩

/-- C7: for an empty first sequence the window `similarity` hands to `choose_alignment`
is the unchanged, empty initial window, and `choose_alignment` evaluates `max_value` on
it, which violates the precondition of `max_value`. -/
theorem max_value_of_empty_initial_window {α : Type} [DecidableEq α] (scoring : Scoring)
    (b : List α) :
    fill_matrix scoring ([] : List α) b (Matrix.full 0 b.length)
      = .ok (Matrix.full 0 b.length) ∧
    (Matrix.full 0 b.length).empty = true ∧
    (Matrix.full 0 b.length).max_value = .error Fault.max_of_empty ∧
    choose_alignment scoring ([] : List α) b [Matrix.full 0 b.length]
      = .error Fault.max_of_empty := by
  obtain ⟨h1, h2⟩ := fill_matrix_full_empty scoring ([] : List α) b (Or.inl rfl)
  exact ⟨h1, h2, Matrix.max_value_empty _ h2, choose_alignment_head_empty scoring [] b _ [] h2⟩

/-- C8: no cell lookup and no sequence lookup of a run of `similarity` leaves its window
or its sequence, and the fuel of the loops is never exhausted: the run returns a score,
or it ends with the `max_value` of an empty window. -/
theorem similarity_lookups_in_bounds {α : Type} [DecidableEq α] (scoring : Scoring)
    (a b : List α) :
    similarity scoring a b ≠ .error Fault.cell_out_of_bounds ∧
    similarity scoring a b ≠ .error Fault.sequence_out_of_bounds ∧
    ((∃ total, similarity scoring a b = .ok total) ∨
      similarity scoring a b = .error Fault.max_of_empty) := by
  have key : (∃ total, similarity scoring a b = .ok total) ∨
      similarity scoring a b = .error Fault.max_of_empty := by
    by_cases h : a = [] ∨ b = []
    · right; exact similarity_empty scoring a b h
    · left
      obtain ⟨m, _, _, _, hres, _⟩ := similarity_trace_spec scoring a b
        (fun ha => h (Or.inl ha)) (fun hb => h (Or.inr hb))
      rw [similarity_trace_result] at hres
      exact ⟨_, hres⟩
  refine ⟨?_, ?_, key⟩
  · rcases key with ⟨t, ht⟩ | h
    · rw [ht]; exact fun h => Except.noConfusion h
    · rw [h]; exact fun h => by cases h
  · rcases key with ⟨t, ht⟩ | h
    · rw [ht]; exact fun h => Except.noConfusion h
    · rw [h]; exact fun h => by cases h

/-- C9 (counterexample): with `min_len == 0` and `part_value == 0` the run on `[0]`,
`[0]` is not rejected, it returns the score `1`. -/
theorem similarity_accepts_min_len_zero :
    (⟨1, -1, -1, 0, 0⟩ : Scoring).min_len = 0 ∧ (⟨1, -1, -1, 0, 0⟩ : Scoring).part_value ≥ 0 ∧
    similarity ⟨1, -1, -1, 0, 0⟩ [0] [0] = .ok 1 := by
  decide

/-- C9 (amended): `similarity` does not check its configuration: for every scoring, the
ones with `min_len == 0` and `part_value >= 0` included, the run on non-empty sequences
goes through the loop and returns a score. -/
theorem similarity_unchecked_scoring {α : Type} [DecidableEq α] (scoring : Scoring)
    (a b : List α) (ha : a ≠ []) (hb : b ≠ []) :
    ∃ total, similarity scoring a b = .ok total := by
  obtain ⟨m, _, _, _, hres, _⟩ := similarity_trace_spec scoring a b ha hb
  rw [similarity_trace_result] at hres
  exact ⟨_, hres⟩

/-- C9 (witness): a scoring with `min_len == 0` and `part_value == 3`. -/
theorem similarity_unchecked_scoring_witness :
    (⟨2, -1, -1, 3, 0⟩ : Scoring).min_len = 0 ∧ 0 ≤ (⟨2, -1, -1, 3, 0⟩ : Scoring).part_value ∧
    [7, 8] ≠ [] ∧ [8] ≠ [] ∧ ∃ total, similarity ⟨2, -1, -1, 3, 0⟩ [7, 8] [8] = .ok total :=
  ⟨by decide, by decide, by decide, by decide,
    similarity_unchecked_scoring ⟨2, -1, -1, 3, 0⟩ [7, 8] [8] (by decide) (by decide)⟩

theorem exists_mem_keep (q : Matrix) (i j : Nat) :
    (∃ p ∈ keep q, p.inside i j) ↔ q.inside i j := by
  constructor
  · rintro ⟨p, hp, hin⟩
    obtain ⟨rfl, _⟩ := mem_keep hp
    exact hin
  · intro hin
    refine ⟨q, ?_, hin⟩
    have hne : q.empty = false := by
      rw [Matrix.not_empty_iff]
      unfold Matrix.inside at hin
      omega
    unfold keep
    rw [hne]
    simp

theorem keep_sublist (q : Matrix) : List.Sublist (keep q) [q] := by
  unfold keep
  cases q.empty <;> simp

theorem noOverlap_of_rows (p q : Matrix) (h : p.row_end ≤ q.row_begin ∨ q.row_end ≤ p.row_begin) :
    NoOverlap p q := by
  rintro ⟨i, j, hp, hq⟩
  unfold Matrix.inside at hp hq
  omega

theorem noOverlap_of_cols (p q : Matrix) (h : p.col_end ≤ q.col_begin ∨ q.col_end ≤ p.col_begin) :
    NoOverlap p q := by
  rintro ⟨i, j, hp, hq⟩
  unfold Matrix.inside at hp hq
  omega

/-- C2 (counterexample): for the window `[0, 3) × [0, 3)` and the alignment
`[1, 2) × [1, 2)` inside it the returned windows do not cover the window minus the
rectangle of the alignment: the cell `(0, 1)` is in none of them. -/
theorem remove_alignment_not_rectangle_complement :
    ¬ ∀ i j,
      (∃ p ∈ (remove_alignment [Matrix.full 3 3] (Matrix.sub (Matrix.full 3 3) 1 2 1 2)).1 ++
          (remove_alignment [Matrix.full 3 3] (Matrix.sub (Matrix.full 3 3) 1 2 1 2)).2,
        p.inside i j) ↔
      ((Matrix.full 3 3).inside i j ∧ ¬ (Matrix.sub (Matrix.full 3 3) 1 2 1 2).inside i j) :=
  fun h => absurd (h 0 1) (by decide)

/-- C2 (amended): for every window `W` and every well-formed alignment rectangle the
windows `remove_alignment` returns for `W` (unaffected together with affected) are
pairwise non-overlapping, and the union of their cell sets is the set of the cells of
`W` whose row is outside the row range of the alignment and whose column is outside
its column range. -/
theorem remove_alignment_partition (W A : Matrix) (hr : A.row_begin ≤ A.row_end)
    (hc : A.col_begin ≤ A.col_end) :
    (∀ i j, (∃ p ∈ (remove_alignment [W] A).1 ++ (remove_alignment [W] A).2, p.inside i j) ↔
      (W.inside i j ∧ ¬ (A.row_begin ≤ i ∧ i < A.row_end) ∧
        ¬ (A.col_begin ≤ j ∧ j < A.col_end))) ∧
    ((remove_alignment [W] A).1 ++ (remove_alignment [W] A).2).Pairwise NoOverlap := by
  rw [remove_alignment_eq]
  simp only [List.flatMap_cons, List.flatMap_nil, List.append_nil]
  unfold unaffected_pieces affected_pieces remove_alignment_step
  simp only [push_if_not_empty_eq, List.nil_append, Bool.and_eq_true, Bool.not_eq_true',
    Bool.or_eq_false_iff, decide_eq_false_iff_not, Nat.not_le]
  have pair : ∀ p q : Matrix,
      (p.row_end ≤ q.row_begin ∨ q.row_end ≤ p.row_begin) ∨
      (p.col_end ≤ q.col_begin ∨ q.col_end ≤ p.col_begin) → NoOverlap p q := by
    intro p q h
    rcases h with h | h
    · exact noOverlap_of_rows p q h
    · exact noOverlap_of_cols p q h
  split
  · simp only
    constructor
    · intro i j
      simp only [List.mem_append, or_and_right, exists_or, exists_mem_keep]
      unfold Matrix.inside Matrix.sub
      simp only
      omega
    · refine List.Pairwise.sublist
        (List.Sublist.append (keep_sublist _) (List.Sublist.append
          (List.Sublist.append (keep_sublist _) (keep_sublist _)) (keep_sublist _))) ?_
      simp only [List.singleton_append, List.cons_append, List.nil_append, List.pairwise_cons,
        List.mem_cons, List.mem_singleton, List.not_mem_nil, forall_eq_or_imp, forall_eq,
        IsEmpty.forall_iff, implies_true, List.Pairwise.nil, and_true, or_false]
      refine ⟨⟨?_, ?_, ?_⟩, ⟨?_, ?_⟩, ?_⟩ <;>
        (apply pair; simp only [Matrix.sub]; omega)
  · split
    · simp only
      constructor
      · intro i j
        simp only [List.mem_append, or_and_right, exists_or, exists_mem_keep, List.nil_append,
          List.not_mem_nil, false_and, exists_false, false_or]
        unfold Matrix.inside Matrix.sub
        simp only
        omega
      · rw [List.nil_append]
        refine List.Pairwise.sublist
          (List.Sublist.append (keep_sublist _) (keep_sublist _)) ?_
        simp only [List.singleton_append, List.pairwise_cons,
          List.mem_cons, List.mem_singleton, List.not_mem_nil, forall_eq_or_imp, forall_eq,
          IsEmpty.forall_iff, implies_true, List.Pairwise.nil, and_true, or_false]
        apply pair; simp only [Matrix.sub]; omega
    · split
      · simp only
        constructor
        · intro i j
          simp only [List.mem_append, or_and_right, exists_or, exists_mem_keep,
            List.nil_append, List.not_mem_nil, false_and, exists_false, false_or]
          unfold Matrix.inside Matrix.sub
          simp only
          omega
        · rw [List.nil_append]
          refine List.Pairwise.sublist
            (List.Sublist.append (keep_sublist _) (keep_sublist _)) ?_
          simp only [List.singleton_append, List.pairwise_cons,
            List.mem_cons, List.mem_singleton, List.not_mem_nil, forall_eq_or_imp, forall_eq,
            IsEmpty.forall_iff, implies_true, List.Pairwise.nil, and_true, or_false]
          apply pair; simp only [Matrix.sub]; omega
      · simp only
        constructor
        · intro i j
          simp only [List.append_nil, List.mem_singleton, exists_eq_left]
          unfold Matrix.inside
          omega
        · simp

/-- C2 (witness): the window `[0, 3) × [0, 3)` and the alignment `[1, 2) × [1, 2)`. -/
theorem remove_alignment_partition_witness :
    (Matrix.sub (Matrix.full 3 3) 1 2 1 2).row_begin ≤
      (Matrix.sub (Matrix.full 3 3) 1 2 1 2).row_end ∧
    (Matrix.sub (Matrix.full 3 3) 1 2 1 2).col_begin ≤
      (Matrix.sub (Matrix.full 3 3) 1 2 1 2).col_end ∧
    (∀ i j,
      (∃ p ∈ (remove_alignment [Matrix.full 3 3] (Matrix.sub (Matrix.full 3 3) 1 2 1 2)).1 ++
          (remove_alignment [Matrix.full 3 3] (Matrix.sub (Matrix.full 3 3) 1 2 1 2)).2,
        p.inside i j) ↔
      ((Matrix.full 3 3).inside i j ∧
        ¬ ((Matrix.sub (Matrix.full 3 3) 1 2 1 2).row_begin ≤ i ∧
          i < (Matrix.sub (Matrix.full 3 3) 1 2 1 2).row_end) ∧
        ¬ ((Matrix.sub (Matrix.full 3 3) 1 2 1 2).col_begin ≤ j ∧
          j < (Matrix.sub (Matrix.full 3 3) 1 2 1 2).col_end))) ∧
    ((remove_alignment [Matrix.full 3 3] (Matrix.sub (Matrix.full 3 3) 1 2 1 2)).1 ++
      (remove_alignment [Matrix.full 3 3] (Matrix.sub (Matrix.full 3 3) 1 2 1 2)).2).Pairwise
        NoOverlap :=
  ⟨by decide, by decide,
    remove_alignment_partition (Matrix.full 3 3) (Matrix.sub (Matrix.full 3 3) 1 2 1 2)
      (by decide) (by decide)⟩

theorem chain_covered {α : Type} [DecidableEq α] (scoring : Scoring) (a b : List α)
    (ms : List Matrix) (acc : List (Int × Matrix)) (rej : Option Matrix) (n : Nat)
    (h : Chain scoring a b ms acc rej n) :
    ∀ x ∈ acc.map Prod.snd ++ rej.toList,
      ∃ mx ∈ ms, ∀ i j, x.inside i j → mx.inside i j := by
  induction h with
  | exhausted => intro x hx; simp at hx
  | stopped ms al _ hal =>
    intro x hx
    simp only [List.map_nil, List.nil_append, Option.toList, List.mem_singleton] at hx
    subst hx
    exact hal
  | accepted ms inc al ms' rest rej n _ hacc _ ih =>
    intro x hx
    rw [List.map_cons, List.cons_append, List.mem_cons] at hx
    rcases hx with rfl | hx
    · obtain ⟨best, hbest, _, h1, h2, h3, h4, _⟩ := hacc.best
      refine ⟨best, hbest, ?_⟩
      intro i j hin
      unfold Matrix.inside at hin ⊢
      omega
    · obtain ⟨p, hp, hcov⟩ := ih x hx
      obtain ⟨mx, hmx, h1, h2, h3, h4, _⟩ := hacc.descend p hp
      refine ⟨mx, hmx, ?_⟩
      intro i j hin
      have := hcov i j hin
      unfold Matrix.inside at this ⊢
      omega

theorem chain_pairwise {α : Type} [DecidableEq α] (scoring : Scoring) (a b : List α)
    (ms : List Matrix) (acc : List (Int × Matrix)) (rej : Option Matrix) (n : Nat)
    (h : Chain scoring a b ms acc rej n) :
    (acc.map Prod.snd ++ rej.toList).Pairwise NoOverlap := by
  induction h with
  | exhausted => simp
  | stopped ms al _ _ => simp [Option.toList]
  | accepted ms inc al ms' rest rej n _ hacc hrest ih =>
    rw [List.map_cons, List.cons_append]
    refine List.Pairwise.cons ?_ ih
    intro y hy
    obtain ⟨p, hp, hcov⟩ := chain_covered scoring a b ms' rest rej n hrest y hy
    obtain ⟨mx, _, _, _, _, _, hrows, _⟩ := hacc.descend p hp
    rintro ⟨i, j, hal, hyin⟩
    have hpin := hcov i j hyin
    unfold Matrix.inside at hal hpin
    simp only at hal
    omega

/-- C5: in every run of `similarity` no two of the alignments the iterations extract
share a cell; this holds for the accepted alignments and for the alignment of the
iteration that leaves the loop. -/
theorem similarity_alignments_disjoint {α : Type} [DecidableEq α] (scoring : Scoring)
    (a b : List α) :
    (similarity_trace scoring a b).extracted.Pairwise
      (fun earlier later => ¬ ∃ i j, earlier.inside i j ∧ later.inside i j) := by
  by_cases h : a = [] ∨ b = []
  · rw [similarity_trace_empty scoring a b h]
    simp [Run.extracted]
  · obtain ⟨m, _, _, _, _, hchain⟩ := similarity_trace_spec scoring a b
      (fun ha => h (Or.inl ha)) (fun hb => h (Or.inr hb))
    exact chain_pairwise scoring a b _ _ _ _ hchain

theorem live_rows_card_le (rows : Nat) (ms : List Matrix) : (live_rows rows ms).card ≤ rows := by
  unfold live_rows
  calc ((Finset.range rows).filter _).card ≤ (Finset.range rows).card := Finset.card_filter_le _ _
    _ = rows := Finset.card_range rows

theorem live_rows_step {α : Type} [DecidableEq α] (scoring : Scoring) (a b : List α)
    (ms ms' : List Matrix) (inc : Int) (al : Matrix) (hinv : Candidates a b ms)
    (hacc : Accepted scoring a b ms inc al ms') :
    (live_rows a.length ms').card + (al.row_end - al.row_begin)
      ≤ (live_rows a.length ms).card := by
  obtain ⟨best, hbest, _, h1, h2, _⟩ := hacc.best
  obtain ⟨_, hbr, _⟩ := hinv best hbest
  have hdisj : Disjoint (live_rows a.length ms') (Finset.Ico al.row_begin al.row_end) := by
    rw [Finset.disjoint_left]
    intro r hr hal
    unfold live_rows at hr
    rw [Finset.mem_filter] at hr
    obtain ⟨_, p, hp, hp1, hp2⟩ := hr
    rw [Finset.mem_Ico] at hal
    obtain ⟨mx, _, _, _, _, _, hrows, _⟩ := hacc.descend p hp
    omega
  have hsub : live_rows a.length ms' ∪ Finset.Ico al.row_begin al.row_end
      ⊆ live_rows a.length ms := by
    intro r hr
    rw [Finset.mem_union] at hr
    unfold live_rows at hr ⊢
    rw [Finset.mem_filter, Finset.mem_range]
    rcases hr with hr | hr
    · rw [Finset.mem_filter, Finset.mem_range] at hr
      obtain ⟨hlt, p, hp, hp1, hp2⟩ := hr
      obtain ⟨mx, hmx, e1, e2, _⟩ := hacc.descend p hp
      exact ⟨hlt, mx, hmx, by omega, by omega⟩
    · rw [Finset.mem_Ico] at hr
      exact ⟨by omega, best, hbest, by omega, by omega⟩
  have hcard := Finset.card_le_card hsub
  rw [Finset.card_union_of_disjoint hdisj, Nat.card_Ico] at hcard
  exact hcard

theorem identical_cells_le {α : Type} [DecidableEq α] (s : List α) (m : Matrix)
    (hrb : m.row_begin = 0) (hcb : m.col_begin = 0)
    (hcons : Consistent unit_scoring s s m) :
    ∀ (k i j : Nat), i + j = k → m.inside i j → m.cells i j ≤ ((min i j : Nat) : Int) + 1 := by
  intro k
  induction k using Nat.strong_induction_on with
  | _ k ih =>
    intro i j hk hin
    have hfix := hcons i j hin
    unfold elt at hfix
    rw [hrb, hcb] at hfix
    have hmv : (if s.get? i = s.get? j then unit_scoring.match_value
        else unit_scoring.mismatch_value) ≤ 1 := by
      split <;> simp [unit_scoring]
    have hsp : unit_scoring.space_value = -1 := rfl
    rw [hsp] at hfix
    obtain ⟨h1, h2, h3, h4⟩ := hin
    have hul : (if i = 0 ∨ j = 0 then (0 : Int) else m.cells (i - 1) (j - 1))
        ≤ ((min i j : Nat) : Int) := by
      split
      · omega
      · have := ih (i - 1 + (j - 1)) (by omega) (i - 1) (j - 1) rfl
          ⟨by omega, by omega, by omega, by omega⟩
        omega
    have hl : (if j = 0 then (0 : Int) else m.cells i (j - 1)) ≤ ((min i j : Nat) : Int) + 1 := by
      split
      · omega
      · have := ih (i + (j - 1)) (by omega) i (j - 1) rfl
          ⟨by omega, by omega, by omega, by omega⟩
        omega
    have hu : (if i = 0 then (0 : Int) else m.cells (i - 1) j) ≤ ((min i j : Nat) : Int) + 1 := by
      split
      · omega
      · have := ih (i - 1 + j) (by omega) (i - 1) j rfl
          ⟨by omega, by omega, by omega, by omega⟩
        omega
    omega

theorem identical_diagonal {α : Type} [DecidableEq α] (s : List α) (m : Matrix)
    (hrb : m.row_begin = 0) (hcb : m.col_begin = 0)
    (hcons : Consistent unit_scoring s s m) :
    ∀ (i : Nat), m.inside i i → m.cells i i = (i : Int) + 1 := by
  intro i
  induction i with
  | zero =>
    intro hin
    have hle := identical_cells_le s m hrb hcb hcons _ 0 0 rfl hin
    have hfix := hcons 0 0 hin
    unfold elt at hfix
    rw [hrb, hcb] at hfix
    simp only [true_or, if_true, unit_scoring] at hfix
    simp only [Nat.min_self, Nat.cast_zero, zero_add] at hle
    omega
  | succ i ih =>
    intro hin
    have hle := identical_cells_le s m hrb hcb hcons _ (i + 1) (i + 1) rfl hin
    have hprev := ih (by
      unfold Matrix.inside at hin ⊢
      omega)
    have hfix := hcons (i + 1) (i + 1) hin
    unfold elt at hfix
    rw [hrb, hcb] at hfix
    simp only [Nat.add_sub_cancel, Nat.succ_ne_zero, or_self, if_false, if_true,
      unit_scoring, hprev] at hfix
    simp only [Nat.min_self] at hle
    push_cast at hle ⊢
    omega

theorem identical_trace {α : Type} [DecidableEq α] (s : List α) (m : Matrix)
    (hrb : m.row_begin = 0) (hcb : m.col_begin = 0)
    (hcons : Consistent unit_scoring s s m) :
    ∀ (fuel i r0 c0 : Nat), m.inside i i → i < fuel →
      trace unit_scoring s s m fuel i i r0 c0 = (0, 0) := by
  intro fuel
  induction fuel with
  | zero => intro i r0 c0 _ h; omega
  | succ fuel ih =>
    intro i r0 c0 hin hfuel
    have hd := identical_diagonal s m hrb hcb hcons i hin
    unfold trace
    rw [if_pos (by omega)]
    cases i with
    | zero =>
      have h1 : diag_move unit_scoring s s m 0 0 = false := by
        unfold diag_move
        rw [decide_eq_false_iff_not, hrb]
        omega
      have h2 : up_move unit_scoring m 0 0 = false := by
        unfold up_move
        rw [decide_eq_false_iff_not, hrb]
        omega
      have h3 : left_move unit_scoring m 0 0 = false := by
        unfold left_move
        rw [decide_eq_false_iff_not, hcb]
        omega
      rw [h1, h2, h3]
      rfl
    | succ i =>
      have hin' : m.inside i i := by
        unfold Matrix.inside at hin ⊢
        omega
      have hprev := identical_diagonal s m hrb hcb hcons i hin'
      have h1 : diag_move unit_scoring s s m (i + 1) (i + 1) = true := by
        unfold diag_move match_val
        rw [decide_eq_true_iff, hrb, hcb]
        simp only [Nat.add_sub_cancel, if_true, unit_scoring]
        push_cast at hd
        omega
      rw [h1, if_pos rfl]
      simp only [Nat.add_sub_cancel]
      exact ih i _ _ hin' (by omega)

theorem pieces_whole (al m : Matrix) (hne : m.empty = false)
    (h1 : al.row_begin = m.row_begin) (h2 : al.row_end = m.row_end) :
    unaffected_pieces al m = [] ∧ affected_pieces al m = [] := by
  have key : ∀ p, ¬ (p ∈ unaffected_pieces al m ∨ p ∈ affected_pieces al m) := by
    intro p hp
    obtain ⟨h0, e1, e2, _, _, hrows, _⟩ := pieces_spec al m p hne hp
    rw [Matrix.not_empty_iff] at h0
    omega
  constructor
  · exact List.eq_nil_iff_forall_not_mem.2 (fun p hp => key p (Or.inl hp))
  · exact List.eq_nil_iff_forall_not_mem.2 (fun p hp => key p (Or.inr hp))

theorem similarity_identical_nonempty {α : Type} [DecidableEq α] (s : List α) (hs : s ≠ []) :
    similarity unit_scoring s s = .ok (s.length : Int) := by
  have hn : 0 < s.length := List.length_pos.2 hs
  obtain ⟨m, hm, ⟨b1, b2, b3, b4⟩, hcons, _⟩ := fill_matrix_spec unit_scoring s s
    (Matrix.full s.length s.length) (Nat.le_refl _) (Nat.le_refl _)
  have e1 : m.row_begin = 0 := b1
  have e2 : m.row_end = s.length := b2
  have e3 : m.col_begin = 0 := b3
  have e4 : m.col_end = s.length := b4
  have hmne : m.empty = false := (Matrix.not_empty_iff _).2 ⟨by omega, by omega⟩
  have hcand : Candidates s s [m] := by
    intro x hx
    rw [List.mem_singleton] at hx
    subst hx
    exact ⟨hmne, by omega, by omega⟩
  obtain ⟨i, j, r, c, hme, hmv, hin, hmax, htr, hfa, _⟩ :=
    find_alignment_spec unit_scoring s s m (by omega) (by omega) hmne
  -- the greatest cell is the last cell of the diagonal
  have hlast : m.inside (s.length - 1) (s.length - 1) := by
    unfold Matrix.inside; omega
  have hdl := identical_diagonal s m e1 e3 hcons _ hlast
  have hle := identical_cells_le s m e1 e3 hcons _ i j rfl hin
  have hge := hmax _ _ hlast
  have hij : i = s.length - 1 ∧ j = s.length - 1 := by
    unfold Matrix.inside at hin
    omega
  obtain ⟨rfl, rfl⟩ := hij
  rw [identical_trace s m e1 e3 hcons _ _ _ _ hlast (by omega)] at htr
  obtain ⟨rfl, rfl⟩ := Prod.mk.inj htr
  have hlen : s.length - 1 + 1 = s.length := by omega
  rw [hlen] at hfa
  -- the first iteration accepts the whole table
  obtain ⟨best, hbest, hchoose⟩ := choose_alignment_spec unit_scoring s s [m] hcand
    (List.cons_ne_nil _ _)
  rw [List.mem_singleton] at hbest
  subst hbest
  have hal_in : (Matrix.sub best 0 s.length 0 s.length).inside (s.length - 1) (s.length - 1) := by
    unfold Matrix.inside Matrix.sub
    simp only
    omega
  have hstep : similarity_step unit_scoring s s [best] =
      .ok (Step.next (s.length : Int) (Matrix.sub best 0 s.length 0 s.length) []) := by
    unfold similarity_step
    rw [hchoose, hfa, ok_bind]
    have hc1 : ¬ ((Matrix.sub best 0 s.length 0 s.length).empty = true ∨
        (Matrix.sub best 0 s.length 0 s.length).row_end -
          (Matrix.sub best 0 s.length 0 s.length).row_begin < unit_scoring.min_len ∨
        (Matrix.sub best 0 s.length 0 s.length).col_end -
          (Matrix.sub best 0 s.length 0 s.length).col_begin < unit_scoring.min_len) := by
      rw [Matrix.empty_iff]
      simp only [Matrix.sub, unit_scoring]
      omega
    rw [if_neg hc1]
    have hget : (Matrix.sub best 0 s.length 0 s.length).get
        ((Matrix.sub best 0 s.length 0 s.length).row_end - 1)
        ((Matrix.sub best 0 s.length 0 s.length).col_end - 1) = .ok (s.length : Int) := by
      show (Matrix.sub best 0 s.length 0 s.length).get (s.length - 1) (s.length - 1) = _
      rw [Matrix.get_inside hal_in, sub_cells_inside best _ _ _ _ _ _ hal_in, hdl]
      congr 1
      omega
    rw [hget, ok_bind]
    simp only
    have hc2 : ¬ ((s.length : Int) + unit_scoring.part_value ≤ 0) := by
      simp only [unit_scoring]; omega
    rw [if_neg hc2, remove_alignment_eq]
    obtain ⟨p1, p2⟩ := pieces_whole (Matrix.sub best 0 s.length 0 s.length) best hmne
      (by simp only [Matrix.sub]; omega) (by simp only [Matrix.sub]; omega)
    simp only [List.flatMap_cons, List.flatMap_nil, List.append_nil, p1, p2]
    simp only [unit_scoring, add_zero]
    rfl
  unfold similarity
  rw [hm, ok_bind]
  unfold similarity_loop
  simp only [List.isEmpty_cons, Bool.false_eq_true, if_false, hstep]
  unfold similarity_loop
  simp only [List.isEmpty_nil, if_true, zero_add]

/-- C1: for the scoring `1, -1, -1, 0, 1` the similarity of a non-empty sequence with
itself is its length; for the empty sequence no score is returned, the run ends with
the `max_value` of the empty initial window. -/
theorem similarity_identical {α : Type} [DecidableEq α] (s : List α) :
    similarity (⟨1, -1, -1, 0, 1⟩ : Scoring) s s =
      if s = [] then .error Fault.max_of_empty else .ok (s.length : Int) := by
  by_cases h : s = []
  · rw [if_pos h]
    exact similarity_empty _ s s (Or.inl h)
  · rw [if_neg h]
    exact similarity_identical_nonempty s h

/-! ## Uniqueness of the fixed point -/

theorem elt_congr_nbrs {α : Type} [DecidableEq α] (scoring : Scoring) (a b : List α)
    (m m' : Matrix) (i j : Nat) (hr : m'.row_begin = m.row_begin)
    (hc : m'.col_begin = m.col_begin) (hi : m.row_begin ≤ i) (hj : m.col_begin ≤ j)
    (hcells : ∀ i' j', m.row_begin ≤ i' → m.col_begin ≤ j' → i' ≤ i → j' ≤ j →
      (i' < i ∨ j' < j) → m'.cells i' j' = m.cells i' j') :
    elt scoring a b m' i j = elt scoring a b m i j := by
  unfold elt
  rw [hr, hc]
  have h1 : (if i = m.row_begin ∨ j = m.col_begin then 0 else m'.cells (i - 1) (j - 1))
      = (if i = m.row_begin ∨ j = m.col_begin then 0 else m.cells (i - 1) (j - 1)) := by
    split
    · rfl
    · exact hcells _ _ (by omega) (by omega) (by omega) (by omega) (by omega)
  have h2 : (if j = m.col_begin then 0 else m'.cells i (j - 1))
      = (if j = m.col_begin then 0 else m.cells i (j - 1)) := by
    split
    · rfl
    · exact hcells _ _ (by omega) (by omega) (by omega) (by omega) (by omega)
  have h3 : (if i = m.row_begin then 0 else m'.cells (i - 1) j)
      = (if i = m.row_begin then 0 else m.cells (i - 1) j) := by
    split
    · rfl
    · exact hcells _ _ (by omega) (by omega) (by omega) (by omega) (by omega)
  rw [h1, h2, h3]

theorem consistent_unique {α : Type} [DecidableEq α] (scoring : Scoring) (a b : List α)
    (m m' : Matrix) (hb : SameBounds m m') (h1 : Consistent scoring a b m)
    (h2 : Consistent scoring a b m') :
    ∀ (k i j : Nat), i + j = k → m.inside i j → m'.cells i j = m.cells i j := by
  obtain ⟨b1, b2, b3, b4⟩ := hb
  intro k
  induction k using Nat.strong_induction_on with
  | _ k ih =>
    intro i j hk hin
    have hin' : m'.inside i j := by
      unfold Matrix.inside at hin ⊢
      rw [b1, b2, b3, b4]; exact hin
    rw [h1 i j hin, h2 i j hin']
    obtain ⟨e1, e2, e3, e4⟩ := hin
    refine elt_congr_nbrs scoring a b m m' i j b1 b3 e1 e3 ?_
    intro i' j' g1 g2 g3 g4 g5
    exact ih (i' + j') (by omega) i' j' rfl ⟨g1, by omega, g2, by omega⟩

theorem matrix_ext (m m' : Matrix) (hb : SameBounds m m')
    (hcells : ∀ i j, m'.cells i j = m.cells i j) : m' = m := by
  obtain ⟨b1, b2, b3, b4⟩ := hb
  cases m with
  | mk rb re cb ce cells =>
    cases m' with
    | mk rb' re' cb' ce' cells' =>
      simp only at b1 b2 b3 b4 hcells
      subst b1 b2 b3 b4
      have : cells' = cells := funext (fun i => funext (fun j => hcells i j))
      rw [this]

theorem get_congr (m m' : Matrix) (hb : SameBounds m m')
    (hcells : ∀ i j, m.inside i j → m'.cells i j = m.cells i j) :
    ∀ i j, m'.get i j = m.get i j := by
  obtain ⟨b1, b2, b3, b4⟩ := hb
  intro i j
  unfold Matrix.get
  by_cases hin : m.inside i j
  · have hin' : m'.inside i j := by
      unfold Matrix.inside at hin ⊢
      rw [b1, b2, b3, b4]; exact hin
    rw [if_pos hin, if_pos hin', hcells i j hin]
  · have hin' : ¬ m'.inside i j := by
      unfold Matrix.inside at hin ⊢
      rw [b1, b2, b3, b4]; exact hin
    rw [if_neg hin, if_neg hin']

theorem consistent_iff_compute {α : Type} [DecidableEq α] (scoring : Scoring) (a b : List α)
    (m : Matrix) (hr : m.row_end ≤ a.length) (hc : m.col_end ≤ b.length) :
    Consistent scoring a b m ↔
      ∀ i j, m.inside i j → compute_matrix_elt scoring a b m i j = m.get i j := by
  constructor
  · intro h i j hin
    have h1 := hin.2.1
    have h2 := hin.2.2.2
    rw [compute_matrix_elt_inside scoring a b m i j hin (by omega) (by omega),
      Matrix.get_inside hin, h i j hin]
  · intro h i j hin
    have h1 := hin.2.1
    have h2 := hin.2.2.2
    have := h i j hin
    rw [compute_matrix_elt_inside scoring a b m i j hin (by omega) (by omega),
      Matrix.get_inside hin] at this
    exact (Except.ok.inj this).symm

/-- C11: `update_matrix` is a full refill that ignores the prior contents: for two
windows with the same rectangle inside the table of `a` and `b`, whatever their cells
hold, `update_matrix` on the one and `fill_matrix` on the other return windows with the
same rectangle and the same value at every coordinate. -/
theorem update_matrix_eq_fill_matrix {α : Type} [DecidableEq α] (scoring : Scoring)
    (a b : List α) (m m' : Matrix)
    (hb : m'.row_begin = m.row_begin ∧ m'.row_end = m.row_end ∧
      m'.col_begin = m.col_begin ∧ m'.col_end = m.col_end)
    (hr : m.row_end ≤ a.length) (hc : m.col_end ≤ b.length) :
    ∃ u f, update_matrix scoring a b m = .ok u ∧ fill_matrix scoring a b m' = .ok f ∧
      u.row_begin = f.row_begin ∧ u.row_end = f.row_end ∧
      u.col_begin = f.col_begin ∧ u.col_end = f.col_end ∧
      ∀ i j, u.get i j = f.get i j := by
  obtain ⟨b1, b2, b3, b4⟩ := hb
  obtain ⟨u, hu, ⟨u1, u2, u3, u4⟩, hcu, _⟩ := update_matrix_spec scoring a b m hr hc
  obtain ⟨f, hf, ⟨f1, f2, f3, f4⟩, hcf, _⟩ := fill_matrix_spec scoring a b m'
    (by omega) (by omega)
  have hsame : SameBounds f u := ⟨by omega, by omega, by omega, by omega⟩
  refine ⟨u, f, hu, hf, by omega, by omega, by omega, by omega, ?_⟩
  exact get_congr f u hsame
    (fun i j hin => consistent_unique scoring a b f u hsame hcf hcu _ i j rfl hin)

/-- C11 (witness): the 2 × 2 table of `[1, 2]` and `[1, 3]`, once holding `0` and once
holding `5` in every cell. -/
theorem update_matrix_eq_fill_matrix_witness :
    ((⟨0, 2, 0, 2, fun _ _ => 5⟩ : Matrix).row_begin = (Matrix.full 2 2).row_begin ∧
      (⟨0, 2, 0, 2, fun _ _ => 5⟩ : Matrix).row_end = (Matrix.full 2 2).row_end ∧
      (⟨0, 2, 0, 2, fun _ _ => 5⟩ : Matrix).col_begin = (Matrix.full 2 2).col_begin ∧
      (⟨0, 2, 0, 2, fun _ _ => 5⟩ : Matrix).col_end = (Matrix.full 2 2).col_end) ∧
    (Matrix.full 2 2).row_end ≤ [1, 2].length ∧ (Matrix.full 2 2).col_end ≤ [1, 3].length ∧
    ∃ u f, update_matrix ⟨1, -1, -1, 0, 1⟩ [1, 2] [1, 3] (Matrix.full 2 2) = .ok u ∧
      fill_matrix ⟨1, -1, -1, 0, 1⟩ [1, 2] [1, 3] ⟨0, 2, 0, 2, fun _ _ => 5⟩ = .ok f ∧
      u.row_begin = f.row_begin ∧ u.row_end = f.row_end ∧
      u.col_begin = f.col_begin ∧ u.col_end = f.col_end ∧
      ∀ i j, u.get i j = f.get i j :=
  ⟨by decide, by decide, by decide,
    update_matrix_eq_fill_matrix ⟨1, -1, -1, 0, 1⟩ [1, 2] [1, 3] (Matrix.full 2 2)
      ⟨0, 2, 0, 2, fun _ _ => 5⟩ (by decide) (by decide) (by decide)⟩

/-! ## The block before the alignment -/

theorem sub_upper_left_consistent {α : Type} [DecidableEq α] (scoring : Scoring) (a b : List α)
    (W : Matrix) (r c : Nat) (hW : Consistent scoring a b W) (hr : r ≤ W.row_end)
    (hc : c ≤ W.col_end) :
    Consistent scoring a b (Matrix.sub W W.row_begin r W.col_begin c) := by
  intro i j hin
  have hin' := hin
  unfold Matrix.inside Matrix.sub at hin'
  simp only at hin'
  have hinW : W.inside i j := ⟨hin'.1, by omega, hin'.2.2.1, by omega⟩
  rw [sub_cells_inside W _ _ _ _ i j hin, hW i j hinW]
  symm
  refine elt_congr_nbrs scoring a b W _ i j rfl rfl hin'.1 hin'.2.2.1 ?_
  intro i' j' g1 g2 g3 g4 _
  have hin2 : (Matrix.sub W W.row_begin r W.col_begin c).inside i' j' := by
    unfold Matrix.inside Matrix.sub
    simp only
    omega
  exact sub_cells_inside W _ _ _ _ i' j' hin2

theorem update_matrix_consistent {α : Type} [DecidableEq α] (scoring : Scoring) (a b : List α)
    (m : Matrix) (hr : m.row_end ≤ a.length) (hc : m.col_end ≤ b.length)
    (hm : Consistent scoring a b m) : update_matrix scoring a b m = .ok m := by
  obtain ⟨u, hu, hb, hcu, hout⟩ := update_matrix_spec scoring a b m hr hc
  have : u = m := by
    apply matrix_ext m u hb
    intro i j
    by_cases hin : m.inside i j
    · exact consistent_unique scoring a b m u hb hm hcu _ i j rfl hin
    · exact hout i j hin
  rw [hu, this]

theorem fill_matrix_consistent {α : Type} [DecidableEq α] (scoring : Scoring) (a b : List α)
    (m : Matrix) (hr : m.row_end ≤ a.length) (hc : m.col_end ≤ b.length)
    (hm : Consistent scoring a b m) : fill_matrix scoring a b m = .ok m := by
  obtain ⟨u, hu, hb, hcu, hout⟩ := fill_matrix_spec scoring a b m hr hc
  have : u = m := by
    apply matrix_ext m u hb
    intro i j
    by_cases hin : m.inside i j
    · exact consistent_unique scoring a b m u hb hm hcu _ i j rfl hin
    · exact hout i j hin
  rw [hu, this]

/-- C12: for a window `W` inside the table of `a` and `b` that is a fixed point of
`compute_matrix_elt`, and `r <= W.row_end`, `c <= W.col_end` (for `r` or `c` below the
beginning of the range the block is empty), the sub-window copy
`[W.row_begin, r) × [W.col_begin, c)` is returned unchanged by `update_matrix`, and by
`fill_matrix` as well. -/
theorem upper_left_block_unchanged {α : Type} [DecidableEq α] (scoring : Scoring)
    (a b : List α) (W : Matrix) (r c : Nat)
    (hrow : W.row_end ≤ a.length) (hcol : W.col_end ≤ b.length)
    (hfix : ∀ i j, W.inside i j → compute_matrix_elt scoring a b W i j = W.get i j)
    (h2 : r ≤ W.row_end) (h4 : c ≤ W.col_end) :
    update_matrix scoring a b (Matrix.sub W W.row_begin r W.col_begin c)
      = .ok (Matrix.sub W W.row_begin r W.col_begin c) ∧
    fill_matrix scoring a b (Matrix.sub W W.row_begin r W.col_begin c)
      = .ok (Matrix.sub W W.row_begin r W.col_begin c) := by
  have hW : Consistent scoring a b W := (consistent_iff_compute scoring a b W hrow hcol).2 hfix
  have hS := sub_upper_left_consistent scoring a b W r c hW h2 h4
  have e1 : (Matrix.sub W W.row_begin r W.col_begin c).row_end ≤ a.length := by
    show r ≤ a.length
    omega
  have e2 : (Matrix.sub W W.row_begin r W.col_begin c).col_end ≤ b.length := by
    show c ≤ b.length
    omega
  exact ⟨update_matrix_consistent scoring a b _ e1 e2 hS,
    fill_matrix_consistent scoring a b _ e1 e2 hS⟩

/-- C12 (witness): the 1 × 1 table of `[1]` and `[2]`, whose only cell holds `0`, with
`r = 1` and `c = 1`. -/
theorem upper_left_block_unchanged_witness :
    (Matrix.full 1 1).row_end ≤ [1].length ∧ (Matrix.full 1 1).col_end ≤ [2].length ∧
    (∀ i j, (Matrix.full 1 1).inside i j →
      compute_matrix_elt ⟨1, -1, -1, 0, 1⟩ [1] [2] (Matrix.full 1 1) i j
        = (Matrix.full 1 1).get i j) ∧
    1 ≤ (Matrix.full 1 1).row_end ∧ 1 ≤ (Matrix.full 1 1).col_end ∧
    update_matrix ⟨1, -1, -1, 0, 1⟩ [1] [2]
        (Matrix.sub (Matrix.full 1 1) (Matrix.full 1 1).row_begin 1
          (Matrix.full 1 1).col_begin 1)
      = .ok (Matrix.sub (Matrix.full 1 1) (Matrix.full 1 1).row_begin 1
          (Matrix.full 1 1).col_begin 1) ∧
    fill_matrix ⟨1, -1, -1, 0, 1⟩ [1] [2]
        (Matrix.sub (Matrix.full 1 1) (Matrix.full 1 1).row_begin 1
          (Matrix.full 1 1).col_begin 1)
      = .ok (Matrix.sub (Matrix.full 1 1) (Matrix.full 1 1).row_begin 1
          (Matrix.full 1 1).col_begin 1) :=
  have hfix : ∀ i j, (Matrix.full 1 1).inside i j →
      compute_matrix_elt ⟨1, -1, -1, 0, 1⟩ [1] [2] (Matrix.full 1 1) i j
        = (Matrix.full 1 1).get i j := by
    intro i j h
    have hi : i = 0 := by
      have := h.2.1
      simp only [Matrix.full] at this
      omega
    have hj : j = 0 := by
      have := h.2.2.2
      simp only [Matrix.full] at this
      omega
    subst hi hj
    decide
  ⟨by decide, by decide, hfix, by decide, by decide,
    upper_left_block_unchanged ⟨1, -1, -1, 0, 1⟩ [1] [2] (Matrix.full 1 1) 1 1
      (by decide) (by decide) hfix (by decide) (by decide)⟩

/-! ## The result of `find_alignment` -/

/-- C13: for a window inside the table of `a` and `b` whose maximum cell value `v` is
positive, with `(i, j)` the cell `max_element` returns, `find_alignment` returns a
window `[rb', i + 1) × [cb', j + 1)` inside the input window, with
`row_begin <= rb' <= i` and `col_begin <= cb' <= j`, whose cells are copies of the cells
of the input window and whose bottom-right cell holds `v`. -/
theorem find_alignment_box {α : Type} [DecidableEq α] (scoring : Scoring) (a b : List α)
    (m : Matrix) (v : Int) (hr : m.row_end ≤ a.length) (hc : m.col_end ≤ b.length)
    (hv : m.max_value = .ok v) (hpos : 0 < v) :
    ∃ i j al, m.max_element = .ok (i, j) ∧ find_alignment scoring a b m = .ok al ∧
      al.row_end = i + 1 ∧ al.col_end = j + 1 ∧
      m.row_begin ≤ al.row_begin ∧ al.row_begin ≤ i ∧ i < m.row_end ∧
      m.col_begin ≤ al.col_begin ∧ al.col_begin ≤ j ∧ j < m.col_end ∧
      (∀ i' j', al.inside i' j' → al.get i' j' = m.get i' j') ∧
      al.get (al.row_end - 1) (al.col_end - 1) = .ok v := by
  have hne : m.empty = false := by
    cases h : m.empty
    · rfl
    · rw [Matrix.max_value_empty m h] at hv
      cases hv
  obtain ⟨i, j, r, c, hme, hmv, hin, _, _, hfa, hcase⟩ :=
    find_alignment_spec scoring a b m hr hc hne
  have hvij : m.cells i j = v := by
    rw [hmv] at hv
    exact Except.ok.inj hv
  have hb : m.row_begin ≤ r ∧ r ≤ i ∧ m.col_begin ≤ c ∧ c ≤ j := by
    rcases hcase with h | h
    · omega
    · exact ⟨h.1, h.2.1, h.2.2.1, h.2.2.2.1⟩
  obtain ⟨h1, h2, h3, h4⟩ := hin
  have hsub : ∀ i' j', (Matrix.sub m r (i + 1) c (j + 1)).inside i' j' → m.inside i' j' := by
    intro i' j' h
    unfold Matrix.inside Matrix.sub at h
    simp only at h
    unfold Matrix.inside
    omega
  refine ⟨i, j, Matrix.sub m r (i + 1) c (j + 1), hme, hfa, rfl, rfl, hb.1, hb.2.1, h2,
    hb.2.2.1, hb.2.2.2, h4, ?_, ?_⟩
  · intro i' j' h
    rw [Matrix.get_inside h, Matrix.get_inside (hsub i' j' h), sub_cells_inside m _ _ _ _ _ _ h]
  · have hlast : (Matrix.sub m r (i + 1) c (j + 1)).inside i j := by
      unfold Matrix.inside Matrix.sub
      simp only
      omega
    show (Matrix.sub m r (i + 1) c (j + 1)).get (i + 1 - 1) (j + 1 - 1) = _
    simp only [Nat.add_sub_cancel]
    rw [Matrix.get_inside hlast, sub_cells_inside m _ _ _ _ _ _ hlast, hvij]

/-- C13 (witness): the 1 × 1 window of `[1]` and `[1]` whose cell holds `1`. -/
theorem find_alignment_box_witness :
    (⟨0, 1, 0, 1, fun _ _ => 1⟩ : Matrix).row_end ≤ [1].length ∧
    (⟨0, 1, 0, 1, fun _ _ => 1⟩ : Matrix).col_end ≤ [1].length ∧
    (⟨0, 1, 0, 1, fun _ _ => 1⟩ : Matrix).max_value = .ok 1 ∧ (0 : Int) < 1 ∧
    ∃ i j al, (⟨0, 1, 0, 1, fun _ _ => 1⟩ : Matrix).max_element = .ok (i, j) ∧
      find_alignment ⟨1, -1, -1, 0, 1⟩ [1] [1] ⟨0, 1, 0, 1, fun _ _ => 1⟩ = .ok al ∧
      al.row_end = i + 1 ∧ al.col_end = j + 1 ∧
      (⟨0, 1, 0, 1, fun _ _ => 1⟩ : Matrix).row_begin ≤ al.row_begin ∧ al.row_begin ≤ i ∧
      i < (⟨0, 1, 0, 1, fun _ _ => 1⟩ : Matrix).row_end ∧
      (⟨0, 1, 0, 1, fun _ _ => 1⟩ : Matrix).col_begin ≤ al.col_begin ∧ al.col_begin ≤ j ∧
      j < (⟨0, 1, 0, 1, fun _ _ => 1⟩ : Matrix).col_end ∧
      (∀ i' j', al.inside i' j' →
        al.get i' j' = (⟨0, 1, 0, 1, fun _ _ => 1⟩ : Matrix).get i' j') ∧
      al.get (al.row_end - 1) (al.col_end - 1) = .ok 1 :=
  ⟨by decide, by decide, by decide, by decide,
    find_alignment_box ⟨1, -1, -1, 0, 1⟩ [1] [1] ⟨0, 1, 0, 1, fun _ _ => 1⟩ 1
      (by decide) (by decide) (by decide) (by decide)⟩

/-- C14: for a non-empty window inside the table of `a` and `b` whose cells are not
negative, `find_alignment` returns a window of zero area if and only if the maximum
cell value of the window is `0`. -/
theorem find_alignment_zero_area_iff {α : Type} [DecidableEq α] (scoring : Scoring)
    (a b : List α) (m : Matrix) (hr : m.row_end ≤ a.length) (hc : m.col_end ≤ b.length)
    (hne : m.empty = false) (hnn : ∀ i j v, m.get i j = .ok v → 0 ≤ v) :
    ∃ al, find_alignment scoring a b m = .ok al ∧
      (al.area = 0 ↔ m.max_value = .ok 0) := by
  obtain ⟨i, j, r, c, _, hmv, hin, _, _, hfa, hcase⟩ :=
    find_alignment_spec scoring a b m hr hc hne
  have h0 := hnn i j _ (Matrix.get_inside hin)
  refine ⟨_, hfa, ?_⟩
  rw [hmv, area_sub]
  rcases hcase with ⟨rfl, rfl, hle⟩ | ⟨_, h2, _, h4, hpos⟩
  · constructor
    · intro _
      have : m.cells i j = 0 := by omega
      rw [this]
    · intro _
      simp
  · constructor
    · intro h
      rcases Nat.mul_eq_zero.1 h with h | h <;> omega
    · intro h
      have := Except.ok.inj h
      omega

/-- C14 (witness): the 1 × 1 table of `[1]` and `[2]`, whose only cell holds `0`. -/
theorem find_alignment_zero_area_iff_witness :
    (Matrix.full 1 1).row_end ≤ [1].length ∧ (Matrix.full 1 1).col_end ≤ [2].length ∧
    (Matrix.full 1 1).empty = false ∧
    (∀ i j v, (Matrix.full 1 1).get i j = .ok v → 0 ≤ v) ∧
    ∃ al, find_alignment ⟨1, -1, -1, 0, 1⟩ [1] [2] (Matrix.full 1 1) = .ok al ∧
      (al.area = 0 ↔ (Matrix.full 1 1).max_value = .ok 0) :=
  have hnn : ∀ i j v, (Matrix.full 1 1).get i j = .ok v → 0 ≤ v := by
    intro i j v h
    unfold Matrix.get at h
    split at h
    · have := Except.ok.inj h
      simp only [Matrix.full] at this
      omega
    · cases h
  ⟨by decide, by decide, by decide, hnn,
    find_alignment_zero_area_iff ⟨1, -1, -1, 0, 1⟩ [1] [2] (Matrix.full 1 1)
      (by decide) (by decide) (by decide) hnn⟩

/-! ## The windows `remove_alignment` returns -/

theorem pieces_avoid (alignment mx p : Matrix)
    (hp : p ∈ unaffected_pieces alignment mx ∨ p ∈ affected_pieces alignment mx) :
    (p.row_end ≤ alignment.row_begin ∨ alignment.row_end ≤ p.row_begin) ∧
    (p.col_end ≤ alignment.col_begin ∨ alignment.col_end ≤ p.col_begin) := by
  unfold unaffected_pieces affected_pieces remove_alignment_step at hp
  simp only [push_if_not_empty_eq, List.nil_append, Bool.and_eq_true, Bool.not_eq_true',
    Bool.or_eq_false_iff, decide_eq_false_iff_not, Nat.not_le] at hp
  have key : ∀ rb re cb ce, p ∈ keep (Matrix.sub mx rb re cb ce) →
      (re ≤ alignment.row_begin ∨ alignment.row_end ≤ rb) →
      (ce ≤ alignment.col_begin ∨ alignment.col_end ≤ cb) →
      (p.row_end ≤ alignment.row_begin ∨ alignment.row_end ≤ p.row_begin) ∧
      (p.col_end ≤ alignment.col_begin ∨ alignment.col_end ≤ p.col_begin) := by
    intro rb re cb ce hmem h5 h6
    obtain ⟨rfl, _⟩ := mem_keep hmem
    exact ⟨h5, h6⟩
  split at hp
  · simp only [List.mem_append] at hp
    rcases hp with hp | (hp | hp) | hp
    · exact key _ _ _ _ hp (by omega) (by omega)
    · exact key _ _ _ _ hp (by omega) (by omega)
    · exact key _ _ _ _ hp (by omega) (by omega)
    · exact key _ _ _ _ hp (by omega) (by omega)
  · split at hp
    · simp only [List.mem_append, List.not_mem_nil, false_or] at hp
      rcases hp with hp | hp
      · exact key _ _ _ _ hp (by omega) (by omega)
      · exact key _ _ _ _ hp (by omega) (by omega)
    · split at hp
      · simp only [List.mem_append, List.not_mem_nil, false_or] at hp
        rcases hp with hp | hp
        · exact key _ _ _ _ hp (by omega) (by omega)
        · exact key _ _ _ _ hp (by omega) (by omega)
      · simp only [List.mem_singleton, List.not_mem_nil, or_false] at hp
        subst hp
        omega

theorem mem_remove_alignment (matrices : List Matrix) (alignment p : Matrix) :
    (p ∈ (remove_alignment matrices alignment).1 ∨ p ∈ (remove_alignment matrices alignment).2)
      ↔ ∃ mx ∈ matrices,
        p ∈ unaffected_pieces alignment mx ∨ p ∈ affected_pieces alignment mx := by
  rw [remove_alignment_eq]
  simp only [List.mem_flatMap]
  constructor
  · rintro (⟨mx, h1, h2⟩ | ⟨mx, h1, h2⟩)
    · exact ⟨mx, h1, Or.inl h2⟩
    · exact ⟨mx, h1, Or.inr h2⟩
  · rintro ⟨mx, h1, h2 | h2⟩
    · exact Or.inl ⟨mx, h1, h2⟩
    · exact Or.inr ⟨mx, h1, h2⟩

/-- C16: for a list of non-empty candidate windows and any alignment rectangle, no
window in either list `remove_alignment` returns has zero area. -/
theorem remove_alignment_no_empty_window (matrices : List Matrix) (alignment : Matrix)
    (hne : ∀ mx ∈ matrices, mx.empty = false) :
    (∀ p ∈ (remove_alignment matrices alignment).1, p.area ≠ 0 ∧ p.empty = false) ∧
    (∀ p ∈ (remove_alignment matrices alignment).2, p.area ≠ 0 ∧ p.empty = false) := by
  have key : ∀ p, (p ∈ (remove_alignment matrices alignment).1 ∨
      p ∈ (remove_alignment matrices alignment).2) → p.area ≠ 0 ∧ p.empty = false := by
    intro p hp
    obtain ⟨mx, hmx, hpm⟩ := (mem_remove_alignment matrices alignment p).1 hp
    have h := (pieces_spec alignment mx p (hne mx hmx) hpm).1
    refine ⟨?_, h⟩
    unfold Matrix.empty at h
    exact of_decide_eq_false h
  exact ⟨fun p hp => key p (Or.inl hp), fun p hp => key p (Or.inr hp)⟩

/-- C16 (witness): the window `[0, 3) × [0, 3)` and the alignment `[0, 2) × [1, 2)`. -/
theorem remove_alignment_no_empty_window_witness :
    (∀ mx ∈ [Matrix.full 3 3], mx.empty = false) ∧
    (∀ p ∈ (remove_alignment [Matrix.full 3 3] (Matrix.sub (Matrix.full 3 3) 0 2 1 2)).1,
      p.area ≠ 0 ∧ p.empty = false) ∧
    (∀ p ∈ (remove_alignment [Matrix.full 3 3] (Matrix.sub (Matrix.full 3 3) 0 2 1 2)).2,
      p.area ≠ 0 ∧ p.empty = false) :=
  ⟨by decide,
    remove_alignment_no_empty_window [Matrix.full 3 3] (Matrix.sub (Matrix.full 3 3) 0 2 1 2)
      (by decide)⟩

/-- C17: `remove_alignment` removes the whole rows and columns of the alignment: for
every list of candidate windows and every alignment rectangle, every window in either
returned list ends at or before the first row of the alignment or begins at or after its
last row, and likewise for the columns; so no row and no column of a returned window is
a row or a column of the alignment. -/
theorem remove_alignment_avoids_rows_and_columns (matrices : List Matrix)
    (alignment p : Matrix)
    (hp : p ∈ (remove_alignment matrices alignment).1 ∨
      p ∈ (remove_alignment matrices alignment).2) :
    (p.row_end ≤ alignment.row_begin ∨ alignment.row_end ≤ p.row_begin) ∧
    (p.col_end ≤ alignment.col_begin ∨ alignment.col_end ≤ p.col_begin) ∧
    (∀ r, ¬ (p.row_begin ≤ r ∧ r < p.row_end ∧
      alignment.row_begin ≤ r ∧ r < alignment.row_end)) ∧
    (∀ c, ¬ (p.col_begin ≤ c ∧ c < p.col_end ∧
      alignment.col_begin ≤ c ∧ c < alignment.col_end)) := by
  obtain ⟨mx, _, hpm⟩ := (mem_remove_alignment matrices alignment p).1 hp
  obtain ⟨h1, h2⟩ := pieces_avoid alignment mx p hpm
  refine ⟨h1, h2, ?_, ?_⟩
  · intro r; omega
  · intro c; omega

/-- C17 (witness): the window `[0, 3) × [0, 3)`, the alignment `[1, 2) × [1, 2)` and the
returned block `[0, 1) × [0, 1)`. -/
theorem remove_alignment_avoids_rows_and_columns_witness :
    (Matrix.sub (Matrix.full 3 3) 0 1 0 1 ∈
        (remove_alignment [Matrix.full 3 3] (Matrix.sub (Matrix.full 3 3) 1 2 1 2)).1 ∨
      Matrix.sub (Matrix.full 3 3) 0 1 0 1 ∈
        (remove_alignment [Matrix.full 3 3] (Matrix.sub (Matrix.full 3 3) 1 2 1 2)).2) ∧
    ((Matrix.sub (Matrix.full 3 3) 0 1 0 1).row_end
        ≤ (Matrix.sub (Matrix.full 3 3) 1 2 1 2).row_begin ∨
      (Matrix.sub (Matrix.full 3 3) 1 2 1 2).row_end
        ≤ (Matrix.sub (Matrix.full 3 3) 0 1 0 1).row_begin) ∧
    ((Matrix.sub (Matrix.full 3 3) 0 1 0 1).col_end
        ≤ (Matrix.sub (Matrix.full 3 3) 1 2 1 2).col_begin ∨
      (Matrix.sub (Matrix.full 3 3) 1 2 1 2).col_end
        ≤ (Matrix.sub (Matrix.full 3 3) 0 1 0 1).col_begin) ∧
    (∀ r, ¬ ((Matrix.sub (Matrix.full 3 3) 0 1 0 1).row_begin ≤ r ∧
      r < (Matrix.sub (Matrix.full 3 3) 0 1 0 1).row_end ∧
      (Matrix.sub (Matrix.full 3 3) 1 2 1 2).row_begin ≤ r ∧
      r < (Matrix.sub (Matrix.full 3 3) 1 2 1 2).row_end)) ∧
    (∀ c, ¬ ((Matrix.sub (Matrix.full 3 3) 0 1 0 1).col_begin ≤ c ∧
      c < (Matrix.sub (Matrix.full 3 3) 0 1 0 1).col_end ∧
      (Matrix.sub (Matrix.full 3 3) 1 2 1 2).col_begin ≤ c ∧
      c < (Matrix.sub (Matrix.full 3 3) 1 2 1 2).col_end)) :=
  ⟨Or.inl (List.Mem.head _),
    remove_alignment_avoids_rows_and_columns [Matrix.full 3 3]
      (Matrix.sub (Matrix.full 3 3) 1 2 1 2) (Matrix.sub (Matrix.full 3 3) 0 1 0 1)
      (Or.inl (List.Mem.head _))⟩

/-! ## The greatest value of a window -/

theorem Matrix.maxv_spec (m : Matrix) (h : m.empty = false) :
    ∃ i j, m.inside i j ∧ m.maxv = m.cells i j ∧
      ∀ i' j', m.inside i' j' → m.cells i' j' ≤ m.maxv := by
  obtain ⟨i, j, _, hmv, hin, hmax⟩ := m.max_element_spec h
  have hv : m.maxv = m.cells i j := by
    have := Matrix.max_value_eq_maxv m h
    rw [hmv] at this
    exact (Except.ok.inj this).symm
  exact ⟨i, j, hin, hv, fun i' j' h' => by rw [hv]; exact hmax i' j' h'⟩

theorem maxv_le_of_cells_le (p mx : Matrix) (hp : p.empty = false)
    (hin : ∀ i j, p.inside i j → mx.inside i j)
    (hle : ∀ i j, p.inside i j → p.cells i j ≤ mx.cells i j) : p.maxv ≤ mx.maxv := by
  obtain ⟨i, j, hpin, hpv, _⟩ := p.maxv_spec hp
  have hmin := hin i j hpin
  have hmx : mx.empty = false := by
    rw [Matrix.not_empty_iff]
    unfold Matrix.inside at hmin
    omega
  obtain ⟨_, _, _, _, hmax⟩ := mx.maxv_spec hmx
  have h1 := hle i j hpin
  have h2 := hmax i j hmin
  omega

theorem consistent_nonneg {α : Type} [DecidableEq α] (scoring : Scoring) (a b : List α)
    (m : Matrix) (hm : Consistent scoring a b m) (i j : Nat) (hin : m.inside i j) :
    0 ≤ m.cells i j := by
  rw [hm i j hin]
  unfold elt
  omega

/-- Refilling a part of a fixed point with zero boundaries never raises a cell. -/
theorem refill_le {α : Type} [DecidableEq α] (scoring : Scoring) (a b : List α)
    (W S : Matrix) (hW : Consistent scoring a b W) (hS : Consistent scoring a b S)
    (h1 : W.row_begin ≤ S.row_begin) (h2 : S.row_end ≤ W.row_end)
    (h3 : W.col_begin ≤ S.col_begin) (h4 : S.col_end ≤ W.col_end) :
    ∀ (k i j : Nat), i + j = k → S.inside i j → S.cells i j ≤ W.cells i j := by
  intro k
  induction k using Nat.strong_induction_on with
  | _ k ih =>
    intro i j hk hin
    obtain ⟨e1, e2, e3, e4⟩ := hin
    have hinW : W.inside i j := ⟨by omega, by omega, by omega, by omega⟩
    rw [hS i j ⟨e1, e2, e3, e4⟩, hW i j hinW]
    unfold elt
    have hul : (if i = S.row_begin ∨ j = S.col_begin then (0 : Int)
        else S.cells (i - 1) (j - 1))
        ≤ (if i = W.row_begin ∨ j = W.col_begin then (0 : Int)
          else W.cells (i - 1) (j - 1)) := by
      by_cases c1 : i = S.row_begin ∨ j = S.col_begin
      · rw [if_pos c1]
        split
        · exact le_refl _
        · exact consistent_nonneg scoring a b W hW _ _
            ⟨by omega, by omega, by omega, by omega⟩
      · rw [if_neg c1, if_neg (by omega)]
        exact ih (i - 1 + (j - 1)) (by omega) (i - 1) (j - 1) rfl
          ⟨by omega, by omega, by omega, by omega⟩
    have hl : (if j = S.col_begin then (0 : Int) else S.cells i (j - 1))
        ≤ (if j = W.col_begin then (0 : Int) else W.cells i (j - 1)) := by
      by_cases c1 : j = S.col_begin
      · rw [if_pos c1]
        split
        · exact le_refl _
        · exact consistent_nonneg scoring a b W hW _ _
            ⟨by omega, by omega, by omega, by omega⟩
      · rw [if_neg c1, if_neg (by omega)]
        exact ih (i + (j - 1)) (by omega) i (j - 1) rfl
          ⟨by omega, by omega, by omega, by omega⟩
    have hu : (if i = S.row_begin then (0 : Int) else S.cells (i - 1) j)
        ≤ (if i = W.row_begin then (0 : Int) else W.cells (i - 1) j) := by
      by_cases c1 : i = S.row_begin
      · rw [if_pos c1]
        split
        · exact le_refl _
        · exact consistent_nonneg scoring a b W hW _ _
            ⟨by omega, by omega, by omega, by omega⟩
      · rw [if_neg c1, if_neg (by omega)]
        exact ih (i - 1 + j) (by omega) (i - 1) j rfl
          ⟨by omega, by omega, by omega, by omega⟩
    omega

theorem max_index_spec :
    ∀ (xs l : List Int) (k best : Nat) (bestv : Int), l.length = k →
      l.get? best = some bestv → (∀ x ∈ l, x ≤ bestv) →
      ∃ v, (l ++ xs).get? (max_index xs k best bestv) = some v ∧ ∀ x ∈ l ++ xs, x ≤ v := by
  intro xs
  induction xs with
  | nil =>
    intro l k best bestv _ hget hall
    refine ⟨bestv, ?_, ?_⟩
    · simpa [max_index] using hget
    · simpa using hall
  | cons x xs ih =>
    intro l k best bestv hlen hget hall
    have hbest : best < l.length := by
      by_contra hcon
      rw [List.get?_eq_none.2 (by omega)] at hget
      cases hget
    unfold max_index
    have happ : l ++ x :: xs = (l ++ [x]) ++ xs := by simp
    rw [happ]
    split
    · rename_i hlt
      apply ih (l ++ [x]) (k + 1) k x
      · simp [hlen]
      · rw [← hlen]
        simp
      · intro y hy
        rcases List.mem_append.1 hy with hy | hy
        · have := hall y hy
          omega
        · simp only [List.mem_singleton] at hy
          omega
    · rename_i hlt
      apply ih (l ++ [x]) (k + 1) best bestv
      · simp [hlen]
      · rw [List.get?_eq_getElem?, List.getElem?_append_left hbest, ← List.get?_eq_getElem?]
        exact hget
      · intro y hy
        rcases List.mem_append.1 hy with hy | hy
        · exact hall y hy
        · simp only [List.mem_singleton] at hy
          omega

theorem choose_alignment_max {α : Type} [DecidableEq α] (scoring : Scoring) (a b : List α)
    (matrices : List Matrix) (hinv : Candidates a b matrices) (hne : matrices ≠ []) :
    ∃ best ∈ matrices, (∀ m ∈ matrices, m.maxv ≤ best.maxv) ∧
      choose_alignment scoring a b matrices = find_alignment scoring a b best := by
  unfold choose_alignment
  rw [mapM_max_value matrices (fun m hm => (hinv m hm).1), ok_bind]
  cases matrices with
  | nil => exact absurd rfl hne
  | cons m rest =>
    simp only [List.map_cons]
    obtain ⟨v, hv, hall⟩ := max_index_spec (rest.map Matrix.maxv) [m.maxv] 1 0 m.maxv rfl rfl
      (by intro x hx; simp only [List.mem_singleton] at hx; omega)
    have hlt := max_index_lt (rest.map Matrix.maxv) 1 0 m.maxv (by omega)
    rw [List.length_map] at hlt
    have hlt' : max_index (rest.map Matrix.maxv) 1 0 m.maxv < (m :: rest).length := by
      simp only [List.length_cons]; omega
    rw [List.get?_eq_get hlt']
    refine ⟨_, List.get_mem _ _ _, ?_, rfl⟩
    have hmap : [m.maxv] ++ rest.map Matrix.maxv = (m :: rest).map Matrix.maxv := rfl
    rw [hmap, List.get?_eq_getElem?, List.getElem?_map, ← List.get?_eq_getElem?,
      List.get?_eq_get hlt'] at hv
    have hv' : ((m :: rest).get ⟨_, hlt'⟩).maxv = v := by
      simpa using hv
    intro x hx
    rw [hv']
    apply hall
    rw [hmap]
    exact List.mem_map_of_mem _ hx

theorem unaffected_shape (alignment mx p : Matrix) (hp : p ∈ unaffected_pieces alignment mx) :
    p = mx ∨ (p = Matrix.sub mx mx.row_begin alignment.row_begin mx.col_begin
      alignment.col_begin ∧ alignment.row_begin ≤ mx.row_end ∧
      alignment.col_begin ≤ mx.col_end) := by
  unfold unaffected_pieces remove_alignment_step at hp
  simp only [push_if_not_empty_eq, List.nil_append, Bool.and_eq_true, Bool.not_eq_true',
    Bool.or_eq_false_iff, decide_eq_false_iff_not, Nat.not_le] at hp
  split at hp
  · rename_i hc
    right
    exact ⟨(mem_keep hp).1, by omega, by omega⟩
  · split at hp
    · simp at hp
    · split at hp
      · simp at hp
      · left
        simpa using hp

/-! ## The score of an alignment -/

theorem match_val_le {α : Type} [DecidableEq α] (scoring : Scoring) (a b : List α) (i j : Nat)
    (h1 : scoring.mismatch_value ≤ scoring.match_value) :
    match_val scoring a b i j ≤ scoring.match_value := by
  unfold match_val
  split
  · exact le_refl _
  · exact h1

theorem elt_eq_match_val {α : Type} [DecidableEq α] (scoring : Scoring) (a b : List α)
    (m : Matrix) (i j : Nat) :
    elt scoring a b m i j = max 0 (max
      ((if i = m.row_begin ∨ j = m.col_begin then 0 else m.cells (i - 1) (j - 1))
        + match_val scoring a b i j)
      (max ((if j = m.col_begin then 0 else m.cells i (j - 1)) + scoring.space_value)
        ((if i = m.row_begin then 0 else m.cells (i - 1) j) + scoring.space_value))) := rfl

/-- The value at the start of the traceback is at most `match_value` times the number
of diagonal steps of the walk plus one. -/
theorem trace_score_le {α : Type} [DecidableEq α] (scoring : Scoring) (a b : List α)
    (m : Matrix) (hm : Consistent scoring a b m)
    (h1 : scoring.mismatch_value ≤ scoring.match_value) (h2 : scoring.space_value ≤ 0) :
    ∀ (fuel i j r0 c0 : Nat), m.inside i j → (i - m.row_begin) + (j - m.col_begin) < fuel →
      0 < m.cells i j →
      ∃ d : Nat, d ≤ i - (trace scoring a b m fuel i j r0 c0).1 ∧
        d ≤ j - (trace scoring a b m fuel i j r0 c0).2 ∧
        m.cells i j ≤ scoring.match_value * ((d : Int) + 1) := by
  intro fuel
  induction fuel with
  | zero => intro i j r0 c0 _ h; omega
  | succ fuel ih =>
    intro i j r0 c0 hin hfuel hpos
    obtain ⟨e1, e2, e3, e4⟩ := hin
    have hmv := match_val_le scoring a b i j h1
    unfold trace
    rw [if_pos hpos]
    by_cases c1 : diag_move scoring a b m i j = true
    · rw [if_pos c1]
      unfold diag_move at c1
      rw [decide_eq_true_iff] at c1
      obtain ⟨g1, g2, g3⟩ := c1
      have hin' : m.inside (i - 1) (j - 1) := ⟨by omega, by omega, by omega, by omega⟩
      rcases trace_spec scoring a b m fuel (i - 1) (j - 1) i j (by omega) (by omega)
        (by omega) with h | h
      · rw [h.1]
        refine ⟨0, by simp, by simp, ?_⟩
        have := h.2
        simp only [Nat.cast_zero, zero_add, mul_one]
        omega
      · obtain ⟨d, d1, d2, d3⟩ := ih (i - 1) (j - 1) i j hin' (by omega) h.2.2.2.2
        refine ⟨d + 1, by omega, by omega, ?_⟩
        push_cast
        linarith
    · rw [if_neg c1]
      by_cases c2 : up_move scoring m i j = true
      · rw [if_pos c2]
        unfold up_move at c2
        rw [decide_eq_true_iff] at c2
        obtain ⟨g1, g3⟩ := c2
        have hin' : m.inside (i - 1) j := ⟨by omega, by omega, by omega, by omega⟩
        rcases trace_spec scoring a b m fuel (i - 1) j i j (by omega) (by omega)
          (by omega) with h | h
        · have := h.2
          omega
        · obtain ⟨d, d1, d2, d3⟩ := ih (i - 1) j i j hin' (by omega) h.2.2.2.2
          refine ⟨d, by omega, by omega, ?_⟩
          linarith
      · rw [if_neg c2]
        by_cases c3 : left_move scoring m i j = true
        · rw [if_pos c3]
          unfold left_move at c3
          rw [decide_eq_true_iff] at c3
          obtain ⟨g1, g3⟩ := c3
          have hin' : m.inside i (j - 1) := ⟨by omega, by omega, by omega, by omega⟩
          rcases trace_spec scoring a b m fuel i (j - 1) i j (by omega) (by omega)
            (by omega) with h | h
          · have := h.2
            omega
          · obtain ⟨d, d1, d2, d3⟩ := ih i (j - 1) i j hin' (by omega) h.2.2.2.2
            refine ⟨d, by omega, by omega, ?_⟩
            linarith
        · rw [if_neg c3]
          refine ⟨0, by simp, by simp, ?_⟩
          simp only [Nat.cast_zero, zero_add, mul_one]
          have hfix := hm i j ⟨e1, e2, e3, e4⟩
          rw [elt_eq_match_val] at hfix
          unfold diag_move at c1
          unfold up_move at c2
          unfold left_move at c3
          rw [decide_eq_true_iff] at c1 c2 c3
          by_cases hi : i = m.row_begin
          · by_cases hj : j = m.col_begin
            · rw [if_pos (Or.inl hi), if_pos hj, if_pos hi] at hfix
              omega
            · rw [if_pos (Or.inl hi), if_neg hj, if_pos hi] at hfix
              have : j > m.col_begin := by omega
              omega
          · by_cases hj : j = m.col_begin
            · rw [if_pos (Or.inr hj), if_pos hj, if_neg hi] at hfix
              have : i > m.row_begin := by omega
              omega
            · rw [if_neg (by omega), if_neg hj, if_neg hi] at hfix
              have : i > m.row_begin := by omega
              have : j > m.col_begin := by omega
              omega

/-! ## Iterations on fixed points -/

theorem similarity_step_next_inv {α : Type} [DecidableEq α] (scoring : Scoring) (a b : List α)
    (ms : List Matrix) (inc : Int) (al : Matrix) (ms' : List Matrix)
    (h : similarity_step scoring a b ms = .ok (Step.next inc al ms')) :
    choose_alignment scoring a b ms = .ok al ∧
    ∃ v aff', al.get (al.row_end - 1) (al.col_end - 1) = .ok v ∧
      inc = v + scoring.part_value ∧
      (remove_alignment ms al).2.mapM (update_matrix scoring a b) = .ok aff' ∧
      ms' = (remove_alignment ms al).1 ++ aff' := by
  unfold similarity_step at h
  cases hch : choose_alignment scoring a b ms with
  | error e => rw [hch] at h; cases h
  | ok al0 =>
    rw [hch, ok_bind] at h
    split at h
    · cases h
    · cases hget : al0.get (al0.row_end - 1) (al0.col_end - 1) with
      | error e => rw [hget] at h; cases h
      | ok v =>
        rw [hget, ok_bind] at h
        simp only at h
        split at h
        · cases h
        · cases hmap : (remove_alignment ms al0).2.mapM (update_matrix scoring a b) with
          | error e =>
            rw [hmap] at h
            cases h
          | ok aff' =>
            rw [hmap, ok_bind] at h
            have h' := Except.ok.inj h
            injection h' with e1 e2 e3
            subst e2
            exact ⟨rfl, v, aff', hget, e1.symm, hmap, e3.symm⟩

theorem similarity_step_refined {α : Type} [DecidableEq α] (scoring : Scoring) (a b : List α)
    (ms : List Matrix) (hinv : Candidates a b ms)
    (hcons : ∀ m ∈ ms, Consistent scoring a b m) (inc : Int) (al : Matrix)
    (ms' : List Matrix) (hstep : similarity_step scoring a b ms = .ok (Step.next inc al ms')) :
    Refined scoring a b ms inc al ms' := by
  obtain ⟨hch, v, aff', hget, hinc, hmap, hms'⟩ :=
    similarity_step_next_inv scoring a b ms inc al ms' hstep
  have hne : ms ≠ [] := by
    rintro rfl
    have : choose_alignment scoring a b [] = .error Fault.no_candidates := rfl
    rw [this] at hch
    cases hch
  have hacc : Accepted scoring a b ms inc al ms' := by
    rcases similarity_step_spec scoring a b ms hinv hne with
      ⟨al0, h0, _⟩ | ⟨inc0, al0, ms0, h0, hacc0⟩
    · rw [hstep] at h0
      cases h0
    · rw [hstep] at h0
      have h' := Except.ok.inj h0
      injection h' with e1 e2 e3
      subst e1 e2 e3
      exact hacc0
  obtain ⟨best, hbest, hmaxl, hchoose⟩ := choose_alignment_max scoring a b ms hinv hne
  obtain ⟨hbne, hbr, hbc⟩ := hinv best hbest
  obtain ⟨i, j, r, c, _, hmv, hin, _, htr, hfa, hcase⟩ :=
    find_alignment_spec scoring a b best hbr hbc hbne
  have hal : al = Matrix.sub best r (i + 1) c (j + 1) := by
    rw [hchoose, hfa] at hch
    exact (Except.ok.inj hch).symm
  have hb1 : al.row_begin = r := by rw [hal]; rfl
  have hb2 : al.row_end = i + 1 := by rw [hal]; rfl
  have hb3 : al.col_begin = c := by rw [hal]; rfl
  have hb4 : al.col_end = j + 1 := by rw [hal]; rfl
  have hrows := hacc.rows
  have hcols := hacc.cols
  have hpos : best.row_begin ≤ r ∧ r ≤ i ∧ best.col_begin ≤ c ∧ c ≤ j ∧
      0 < best.cells i j := by
    rcases hcase with h | h
    · omega
    · exact h
  have hmaxv : best.maxv = best.cells i j := by
    have := Matrix.max_value_eq_maxv best hbne
    rw [hmv] at this
    exact (Except.ok.inj this).symm
  have hv : v = best.maxv := by
    have hins : al.inside (al.row_end - 1) (al.col_end - 1) := by
      unfold Matrix.inside
      rw [hb1, hb2, hb3, hb4]
      omega
    have hcell : al.cells (al.row_end - 1) (al.col_end - 1) = best.cells i j := by
      have h1 : al.row_end - 1 = i := by rw [hb2]; omega
      have h2 : al.col_end - 1 = j := by rw [hb4]; omega
      rw [h1, h2] at hins ⊢
      rw [hal] at hins ⊢
      exact sub_cells_inside best r (i + 1) c (j + 1) i j hins
    rw [Matrix.get_inside hins, hcell] at hget
    rw [hmaxv]
    exact (Except.ok.inj hget).symm
  have hscore : inc - scoring.part_value = best.maxv := by
    rw [hinc, hv]; ring
  rw [remove_alignment_eq] at hmap hms'
  simp only at hmap hms'
  have hpieces : ∀ mx ∈ ms, ∀ p, (p ∈ unaffected_pieces al mx ∨ p ∈ affected_pieces al mx) →
      PieceOf al mx p := fun mx hmx p hp => pieces_spec al mx p (hinv mx hmx).1 hp
  have haff : ∀ m ∈ ms.flatMap (affected_pieces al),
      m.row_end ≤ a.length ∧ m.col_end ≤ b.length := by
    intro p hp
    obtain ⟨mx, hmx, hpmx⟩ := List.mem_flatMap.1 hp
    obtain ⟨_, _, h2, _, h4, _⟩ := hpieces mx hmx p (Or.inr hpmx)
    obtain ⟨_, h5, h6⟩ := hinv mx hmx
    omega
  obtain ⟨aff'', haff'', _, hall⟩ :=
    mapM_update_matrix scoring a b (ms.flatMap (affected_pieces al)) haff
  have haffeq : aff'' = aff' := by
    rw [haff''] at hmap
    exact Except.ok.inj hmap
  subst haffeq
  have hboth : ∀ p ∈ ms', Consistent scoring a b p ∧ p.maxv ≤ best.maxv := by
    intro p hp
    rw [hms'] at hp
    rcases List.mem_append.1 hp with hp | hp
    · obtain ⟨mx, hmx, hpmx⟩ := List.mem_flatMap.1 hp
      obtain ⟨h0, e1, e2, e3, e4, _, _, hcells⟩ := hpieces mx hmx p (Or.inl hpmx)
      constructor
      · rcases unaffected_shape al mx p hpmx with rfl | ⟨rfl, g1, g2⟩
        · exact hcons _ hmx
        · exact sub_upper_left_consistent scoring a b mx _ _ (hcons mx hmx) g1 g2
      · have h1 : p.maxv ≤ mx.maxv := by
          apply maxv_le_of_cells_le p mx h0
          · intro i' j' h'
            unfold Matrix.inside at h' ⊢
            omega
          · intro i' j' h'
            rw [hcells i' j' h']
        have h2 := hmaxl mx hmx
        omega
    · obtain ⟨hcp, q, hq, hsame⟩ := hall p hp
      obtain ⟨s1, s2, s3, s4⟩ := hsame
      obtain ⟨mx, hmx, hqmx⟩ := List.mem_flatMap.1 hq
      obtain ⟨h0, e1, e2, e3, e4, _, _, _⟩ := hpieces mx hmx q (Or.inr hqmx)
      refine ⟨hcp, ?_⟩
      have hpne : p.empty = false := by
        rw [Matrix.not_empty_iff] at h0 ⊢
        omega
      have h1 : p.maxv ≤ mx.maxv := by
        apply maxv_le_of_cells_le p mx hpne
        · intro i' j' h'
          unfold Matrix.inside at h' ⊢
          omega
        · intro i' j' h'
          exact refill_le scoring a b mx p (hcons mx hmx) hcp (by omega) (by omega)
            (by omega) (by omega) _ i' j' rfl h'
      have h2 := hmaxl mx hmx
      omega
  refine
    { acc := hacc
      consistent := fun p hp => (hboth p hp).1
      maximal := fun m hm => by rw [hscore]; exact hmaxl m hm
      shrink := fun p hp => by rw [hscore]; exact (hboth p hp).2
      value := by
        rw [hget, hv, hscore]
      bound := ?_ }
  intro h1 h2
  obtain ⟨d, d1, d2, d3⟩ := trace_score_le scoring a b best (hcons best hbest) h1 h2
    ((i - best.row_begin) + (j - best.col_begin) + 1) i j (i + 1) (j + 1) hin (by omega)
    hpos.2.2.2.2
  rw [htr] at d1 d2
  simp only at d1 d2
  refine ⟨d, by omega, by omega, ?_⟩
  rw [hscore, hmaxv]
  exact d3

/-! ## The candidate sets of a run -/

theorem similarity_candidates_head {α : Type} [DecidableEq α] (scoring : Scoring)
    (a b : List α) (fuel : Nat) (ms : List Matrix) :
    ∀ y ∈ (similarity_candidates scoring a b fuel ms).head?, y = ms := by
  intro y hy
  cases fuel with
  | zero => simp [similarity_candidates] at hy
  | succ fuel =>
    simp only [similarity_candidates, List.head?_cons, Option.mem_def, Option.some.injEq] at hy
    exact hy.symm

theorem similarity_candidates_spec {α : Type} [DecidableEq α] (scoring : Scoring)
    (a b : List α) :
    ∀ (fuel : Nat) (ms : List Matrix), Candidates a b ms →
      (∀ m ∈ ms, Consistent scoring a b m) →
      (similarity_candidates scoring a b fuel ms).Chain'
        (fun before after => total_area after < total_area before) ∧
      ∀ S ∈ similarity_candidates scoring a b fuel ms,
        Candidates a b S ∧ ∀ m ∈ S, Consistent scoring a b m := by
  intro fuel
  induction fuel with
  | zero =>
    intro ms _ _
    exact ⟨List.chain'_nil, fun S hS => by cases hS⟩
  | succ fuel ih =>
    intro ms hinv hcons
    unfold similarity_candidates
    by_cases hempty : ms.isEmpty = true
    · rw [if_pos hempty]
      refine ⟨List.chain'_singleton _, ?_⟩
      intro S hS
      rw [List.mem_singleton] at hS
      subst hS
      exact ⟨hinv, hcons⟩
    · rw [if_neg hempty]
      cases hstep : similarity_step scoring a b ms with
      | error e =>
        refine ⟨List.chain'_singleton _, ?_⟩
        intro S hS
        rw [List.mem_singleton] at hS
        subst hS
        exact ⟨hinv, hcons⟩
      | ok st =>
        cases st with
        | stop al =>
          refine ⟨List.chain'_singleton _, ?_⟩
          intro S hS
          rw [List.mem_singleton] at hS
          subst hS
          exact ⟨hinv, hcons⟩
        | next inc al ms' =>
          simp only
          have href := similarity_step_refined scoring a b ms hinv hcons inc al ms' hstep
          obtain ⟨h1, h2⟩ := ih ms' href.acc.cands href.consistent
          constructor
          · rw [List.chain'_cons']
            refine ⟨?_, h1⟩
            intro y hy
            rw [similarity_candidates_head scoring a b fuel ms' y hy]
            exact href.acc.area
          · intro S hS
            rcases List.mem_cons.1 hS with rfl | hS
            · exact ⟨hinv, hcons⟩
            · exact h2 S hS

theorem similarity_candidate_sets_empty {α : Type} [DecidableEq α] (scoring : Scoring)
    (a b : List α) (h : a = [] ∨ b = []) :
    similarity_candidate_sets scoring a b = [[Matrix.full a.length b.length]] := by
  obtain ⟨hfill, hempty⟩ := fill_matrix_full_empty scoring a b h
  unfold similarity_candidate_sets
  rw [hfill]
  simp only
  unfold similarity_candidates
  simp only [List.isEmpty_cons, Bool.false_eq_true, if_false]
  rw [similarity_step_head_empty scoring a b _ [] hempty]

theorem similarity_candidate_sets_spec {α : Type} [DecidableEq α] (scoring : Scoring)
    (a b : List α) (ha : a ≠ []) (hb : b ≠ []) :
    (similarity_candidate_sets scoring a b).Chain'
      (fun before after => total_area after < total_area before) ∧
    ∀ S ∈ similarity_candidate_sets scoring a b,
      Candidates a b S ∧ ∀ m ∈ S, Consistent scoring a b m := by
  obtain ⟨m, hm, hbounds, hcons, _⟩ := fill_matrix_spec scoring a b
    (Matrix.full a.length b.length) (Nat.le_refl _) (Nat.le_refl _)
  have hla : 0 < a.length := List.length_pos.2 ha
  have hlb : 0 < b.length := List.length_pos.2 hb
  obtain ⟨b1, b2, b3, b4⟩ := hbounds
  have e1 : m.row_begin = 0 := b1
  have e2 : m.row_end = a.length := b2
  have e3 : m.col_begin = 0 := b3
  have e4 : m.col_end = b.length := b4
  have hcand : Candidates a b [m] := by
    intro x hx
    rw [List.mem_singleton] at hx
    subst hx
    exact ⟨(Matrix.not_empty_iff _).2 ⟨by omega, by omega⟩, by omega, by omega⟩
  have hc1 : ∀ x ∈ [m], Consistent scoring a b x := by
    intro x hx
    rw [List.mem_singleton] at hx
    subst hx
    exact hcons
  unfold similarity_candidate_sets
  rw [hm]
  exact similarity_candidates_spec scoring a b _ [m] hcand hc1

/-- C15: for every scoring, every iteration of the loop of `similarity` that does not
leave the loop makes the total area of the candidate windows strictly smaller: this
holds for one iteration on any set of non-empty candidate windows inside the table, and
so the candidate sets of a run have strictly decreasing total area; the fuel of the
loop, the area of the table plus two, is never exhausted. -/
theorem similarity_area_decreases {α : Type} [DecidableEq α] (scoring : Scoring)
    (a b : List α) :
    (∀ ms inc al ms', Candidates a b ms →
      similarity_step scoring a b ms = .ok (Step.next inc al ms') →
      total_area ms' < total_area ms) ∧
    (similarity_candidate_sets scoring a b).Chain'
      (fun before after => total_area after < total_area before) ∧
    similarity scoring a b ≠ .error Fault.out_of_fuel := by
  refine ⟨?_, ?_, ?_⟩
  · intro ms inc al ms' hinv hstep
    have hne : ms ≠ [] := by
      rintro rfl
      have hch := (similarity_step_next_inv scoring a b [] inc al ms' hstep).1
      have : choose_alignment scoring a b [] = .error Fault.no_candidates := rfl
      rw [this] at hch
      cases hch
    rcases similarity_step_spec scoring a b ms hinv hne with
      ⟨al0, h0, _⟩ | ⟨inc0, al0, ms0, h0, hacc0⟩
    · rw [hstep] at h0
      cases h0
    · rw [hstep] at h0
      have h' := Except.ok.inj h0
      injection h' with e1 e2 e3
      subst e1 e2 e3
      exact hacc0.area
  · by_cases h : a = [] ∨ b = []
    · rw [similarity_candidate_sets_empty scoring a b h]
      exact List.chain'_singleton _
    · exact (similarity_candidate_sets_spec scoring a b (fun ha => h (Or.inl ha))
        (fun hb => h (Or.inr hb))).1
  · by_cases h : a = [] ∨ b = []
    · rw [similarity_empty scoring a b h]
      exact fun h => by cases h
    · obtain ⟨m, _, _, _, hres, _⟩ := similarity_trace_spec scoring a b
        (fun ha => h (Or.inl ha)) (fun hb => h (Or.inr hb))
      rw [similarity_trace_result] at hres
      rw [hres]
      exact fun h => Except.noConfusion h

theorem candidate_sets_fixed_points {α : Type} [DecidableEq α] (scoring : Scoring)
    (a b : List α) :
    ∀ S ∈ similarity_candidate_sets scoring a b, ∀ m ∈ S,
      (∀ i j, m.inside i j → compute_matrix_elt scoring a b m i j = m.get i j) ∧
      fill_matrix scoring a b m = .ok m := by
  intro S hS m hm
  by_cases h : a = [] ∨ b = []
  · rw [similarity_candidate_sets_empty scoring a b h, List.mem_singleton] at hS
    subst hS
    rw [List.mem_singleton] at hm
    subst hm
    obtain ⟨hfill, hempty⟩ := fill_matrix_full_empty scoring a b h
    refine ⟨?_, hfill⟩
    intro i j hin
    rw [Matrix.empty_iff] at hempty
    unfold Matrix.inside at hin
    omega
  · obtain ⟨hcand, hcons⟩ := (similarity_candidate_sets_spec scoring a b
      (fun ha => h (Or.inl ha)) (fun hb => h (Or.inr hb))).2 S hS
    obtain ⟨_, hr, hc⟩ := hcand m hm
    exact ⟨(consistent_iff_compute scoring a b m hr hc).1 (hcons m hm),
      fill_matrix_consistent scoring a b m hr hc (hcons m hm)⟩

/-- C20: at every evaluation of the condition of the loop of `similarity`, so at the
start of every iteration, every window of the candidate set is a fixed point of the
recurrence on its own rectangle: each of its cells equals `compute_matrix_elt` evaluated
on the window, and `fill_matrix` returns the window unchanged. -/
theorem similarity_candidates_fixed_points {α : Type} [DecidableEq α] (scoring : Scoring)
    (a b : List α) :
    (similarity_candidate_sets scoring a b).Forall (fun candidates =>
      candidates.Forall (fun m =>
        (∀ i j, m.inside i j → compute_matrix_elt scoring a b m i j = m.get i j) ∧
        fill_matrix scoring a b m = .ok m)) := by
  rw [List.forall_iff_forall_mem]
  intro S hS
  rw [List.forall_iff_forall_mem]
  intro m hm
  exact candidate_sets_fixed_points scoring a b S hS m hm

theorem live_cols_card_le (cols : Nat) (ms : List Matrix) : (live_cols cols ms).card ≤ cols := by
  unfold live_cols
  calc ((Finset.range cols).filter _).card ≤ (Finset.range cols).card := Finset.card_filter_le _ _
    _ = cols := Finset.card_range cols

theorem live_cols_step {α : Type} [DecidableEq α] (scoring : Scoring) (a b : List α)
    (ms ms' : List Matrix) (inc : Int) (al : Matrix) (hinv : Candidates a b ms)
    (hacc : Accepted scoring a b ms inc al ms') :
    (live_cols b.length ms').card + (al.col_end - al.col_begin)
      ≤ (live_cols b.length ms).card := by
  obtain ⟨best, hbest, _, _, _, h3, h4, _⟩ := hacc.best
  obtain ⟨_, _, hbc⟩ := hinv best hbest
  have hdisj : Disjoint (live_cols b.length ms') (Finset.Ico al.col_begin al.col_end) := by
    rw [Finset.disjoint_left]
    intro r hr hal
    unfold live_cols at hr
    rw [Finset.mem_filter] at hr
    obtain ⟨_, p, hp, hp1, hp2⟩ := hr
    rw [Finset.mem_Ico] at hal
    obtain ⟨mx, _, _, _, _, _, _, hcols⟩ := hacc.descend p hp
    omega
  have hsub : live_cols b.length ms' ∪ Finset.Ico al.col_begin al.col_end
      ⊆ live_cols b.length ms := by
    intro r hr
    rw [Finset.mem_union] at hr
    unfold live_cols at hr ⊢
    rw [Finset.mem_filter, Finset.mem_range]
    rcases hr with hr | hr
    · rw [Finset.mem_filter, Finset.mem_range] at hr
      obtain ⟨hlt, p, hp, hp1, hp2⟩ := hr
      obtain ⟨mx, hmx, _, _, e3, e4, _⟩ := hacc.descend p hp
      exact ⟨hlt, mx, hmx, by omega, by omega⟩
    · rw [Finset.mem_Ico] at hr
      exact ⟨by omega, best, hbest, by omega, by omega⟩
  have hcard := Finset.card_le_card hsub
  rw [Finset.card_union_of_disjoint hdisj, Nat.card_Ico] at hcard
  exact hcard

theorem similarity_run_total_le {α : Type} [DecidableEq α] (scoring : Scoring) (a b : List α)
    (h1 : scoring.mismatch_value ≤ scoring.match_value) (h2 : scoring.space_value ≤ 0)
    (h3 : scoring.part_value ≤ 0) :
    ∀ (fuel : Nat) (total : Int) (ms : List Matrix), Candidates a b ms →
      (∀ m ∈ ms, Consistent scoring a b m) →
      ∃ D : Nat, D ≤ (live_rows a.length ms).card ∧ D ≤ (live_cols b.length ms).card ∧
        ((similarity_run scoring a b fuel total ms).accepted.map Prod.fst).sum
          ≤ scoring.match_value * (D : Int) := by
  intro fuel
  induction fuel with
  | zero =>
    intro total ms _ _
    exact ⟨0, Nat.zero_le _, Nat.zero_le _, by simp [similarity_run]⟩
  | succ fuel ih =>
    intro total ms hinv hcons
    unfold similarity_run
    by_cases hempty : ms.isEmpty = true
    · rw [if_pos hempty]
      exact ⟨0, Nat.zero_le _, Nat.zero_le _, by simp⟩
    · rw [if_neg hempty]
      cases hstep : similarity_step scoring a b ms with
      | error e => exact ⟨0, Nat.zero_le _, Nat.zero_le _, by simp⟩
      | ok st =>
        cases st with
        | stop al => exact ⟨0, Nat.zero_le _, Nat.zero_le _, by simp⟩
        | next inc al ms' =>
          simp only
          have href := similarity_step_refined scoring a b ms hinv hcons inc al ms' hstep
          obtain ⟨D', r1, r2, r3⟩ := ih (total + inc) ms' href.acc.cands href.consistent
          obtain ⟨d, d1, d2, d3⟩ := href.bound h1 h2
          have hrows := live_rows_step scoring a b ms ms' inc al hinv href.acc
          have hcols := live_cols_step scoring a b ms ms' inc al hinv href.acc
          refine ⟨d + 1 + D', by omega, by omega, ?_⟩
          rw [List.map_cons, List.sum_cons]
          push_cast
          linarith

/-- C19: for a scoring with `match_value >= 0`, `mismatch_value <= match_value`,
`space_value <= 0` and `part_value <= 0`, the total `similarity` returns for non-empty
sequences is at most `match_value * min(|a|, |b|)`; with an empty sequence no total is
returned. -/
theorem similarity_le_match_times_min {α : Type} [DecidableEq α] (scoring : Scoring)
    (a b : List α) (h0 : 0 ≤ scoring.match_value)
    (h1 : scoring.mismatch_value ≤ scoring.match_value) (h2 : scoring.space_value ≤ 0)
    (h3 : scoring.part_value ≤ 0) :
    ((a = [] ∨ b = []) ∧ similarity scoring a b = .error Fault.max_of_empty) ∨
    ∃ total, similarity scoring a b = .ok total ∧
      total ≤ scoring.match_value * ((min a.length b.length : Nat) : Int) := by
  by_cases h : a = [] ∨ b = []
  · left
    exact ⟨h, similarity_empty scoring a b h⟩
  · right
    obtain ⟨m, hm, hbounds, hcons, hres, _⟩ := similarity_trace_spec scoring a b
      (fun ha => h (Or.inl ha)) (fun hb => h (Or.inr hb))
    have hla : 0 < a.length := List.length_pos.2 (fun ha => h (Or.inl ha))
    have hlb : 0 < b.length := List.length_pos.2 (fun hb => h (Or.inr hb))
    obtain ⟨b1, b2, b3, b4⟩ := hbounds
    have e1 : m.row_begin = 0 := b1
    have e2 : m.row_end = a.length := b2
    have e3 : m.col_begin = 0 := b3
    have e4 : m.col_end = b.length := b4
    have hcand : Candidates a b [m] := by
      intro x hx
      rw [List.mem_singleton] at hx
      subst hx
      exact ⟨(Matrix.not_empty_iff _).2 ⟨by omega, by omega⟩, by omega, by omega⟩
    have hc1 : ∀ x ∈ [m], Consistent scoring a b x := by
      intro x hx
      rw [List.mem_singleton] at hx
      subst hx
      exact hcons
    obtain ⟨D, r1, r2, r3⟩ := similarity_run_total_le scoring a b h1 h2 h3
      (a.length * b.length + 2) 0 [m] hcand hc1
    have htrace : similarity_trace scoring a b =
        similarity_run scoring a b (a.length * b.length + 2) 0 [m] := by
      unfold similarity_trace
      rw [hm]
    rw [similarity_trace_result, htrace] at hres
    refine ⟨_, hres, ?_⟩
    have hD : D ≤ min a.length b.length := by
      have := live_rows_card_le a.length [m]
      have := live_cols_card_le b.length [m]
      omega
    calc ((similarity_run scoring a b (a.length * b.length + 2) 0 [m]).accepted.map
          Prod.fst).sum ≤ scoring.match_value * (D : Int) := r3
      _ ≤ scoring.match_value * ((min a.length b.length : Nat) : Int) :=
        mul_le_mul_of_nonneg_left (by exact_mod_cast hD) h0

/-- C19 (witness): the scoring `1, -1, -1, 0, 1` and the sequences `[1, 2]`, `[1, 3]`. -/
theorem similarity_le_match_times_min_witness :
    0 ≤ (⟨1, -1, -1, 0, 1⟩ : Scoring).match_value ∧
    (⟨1, -1, -1, 0, 1⟩ : Scoring).mismatch_value ≤ (⟨1, -1, -1, 0, 1⟩ : Scoring).match_value ∧
    (⟨1, -1, -1, 0, 1⟩ : Scoring).space_value ≤ 0 ∧
    (⟨1, -1, -1, 0, 1⟩ : Scoring).part_value ≤ 0 ∧
    ((([1, 2] : List Nat) = [] ∨ ([1, 3] : List Nat) = []) ∧
        similarity ⟨1, -1, -1, 0, 1⟩ [1, 2] [1, 3] = .error Fault.max_of_empty ∨
      ∃ total, similarity ⟨1, -1, -1, 0, 1⟩ [1, 2] [1, 3] = .ok total ∧
        total ≤ (⟨1, -1, -1, 0, 1⟩ : Scoring).match_value *
          ((min [1, 2].length [1, 3].length : Nat) : Int)) :=
  ⟨by decide, by decide, by decide, by decide,
    similarity_le_match_times_min ⟨1, -1, -1, 0, 1⟩ [1, 2] [1, 3]
      (by decide) (by decide) (by decide) (by decide)⟩

end stringsim
